import Mathlib

/-!
Verification of the metadata resolution engine in `metadata/update-meta.py`.

Strings are modelled as `List Char` (`Str`); Python dictionaries holding the
per-source metadata are modelled as association lists over a fixed key type
`K` with JSON-like values `JVal`.  External effects (subprocess calls, HTTP
fetches, JSON parsing of fetched bodies) are modelled as oracle inputs: each
pure Lean function takes the outcomes of the external calls it performs as
explicit arguments and reproduces the control flow of the Python source on
those outcomes.
-/

abbrev Str := List Char

def toL (s : String) : Str := s.toList

/-- Python truthiness of an optional string: `None` and the empty string are
falsy, every other string is truthy. -/
def truthy : Option Str → Bool
  | none => false
  | some s => !s.isEmpty

/-- Python whitespace characters recognised by `str.strip()` (ASCII range,
which is all that occurs in the fetched bodies handled here). -/
def pyIsSpace (c : Char) : Bool :=
  (c == ' ') || (c == '\t') || (c == '\n') || (c == '\r') || (c == '\x0b') || (c == '\x0c')

/-- Python `s.strip()`: remove leading and trailing whitespace. -/
def pyStrip (s : Str) : Str :=
  ((s.dropWhile pyIsSpace).reverse.dropWhile pyIsSpace).reverse

/-- Python `s.split(sep)[0]` for a one-character separator: everything before
the first occurrence of the separator (the whole string if absent). -/
def dropFromChar (sep : Char) : Str → Str
  | [] => []
  | a :: as => if a = sep then [] else a :: dropFromChar sep as

/-- Python `s.rstrip('/')`: remove trailing slashes. -/
def rstripSlash (s : Str) : Str :=
  ((s.reverse).dropWhile (fun c => c = '/')).reverse

/-- Python `base[:base.index(p)]` guarded by `p in base`: `some` of the part
of `base` before the first occurrence of `p`, or `none` when `p` does not
occur in `base`. -/
def truncAt (p : Str) : Str → Option Str
  | [] => if p.isEmpty then some [] else none
  | a :: as => if p.isPrefixOf (a :: as) then some [] else (truncAt p as).map (fun t => a :: t)

/-- Loop body of `extract_fossil_base`: try each known page marker in order
and truncate at the first one that occurs anywhere in the string
(`for page in FOSSIL_PAGES: if page in base: base = base[:base.index(page)]; break`). -/
def scanPages : List Str → Str → Str
  | [], base => base
  | p :: ps, base =>
    match truncAt p base with
    | some pre => pre
    | none => scanPages ps base

/-- Fixed ordered list of known Fossil page-path markers (`FOSSIL_PAGES` in
`extract_fossil_base`). -/
def FOSSIL_PAGES : List Str :=
  [toL "/dir", toL "/file", toL "/doc", toL "/wiki", toL "/ticket", toL "/timeline",
   toL "/info", toL "/artifact", toL "/raw", toL "/zip", toL "/tarball", toL "/json",
   toL "/index", toL "/home"]

/-- Embedding of `extract_fossil_base(url)`: strip the query string and the
trailing slash, truncate at the first known page marker (in marker-list
order), and strip a trailing slash again. -/
def extract_fossil_base (url : Str) : Str :=
  rstripSlash (scanPages FOSSIL_PAGES (rstripSlash (dropFromChar '?' url)))

/-! Dictionary model.  Keys are drawn from a fixed alphabet `K`; `K.other n`
stands for any pass-through key of a source descriptor. -/

inductive K where
  | method
  | url
  | reachable
  | archived
  | latest_release
  | last_commit
  | last_commit_sha
  | last_commit_approximate
  | last_tag
  | error
  | other (n : Nat)
deriving DecidableEq, Repr

inductive JVal where
  | null
  | str (s : Str)
  | jbool (b : Bool)
deriving DecidableEq, Repr

abbrev Dict := List (K × JVal)

/-- Python dictionary assignment `d[k] = v`: replace the value at an existing
key, otherwise append the new binding. -/
def dset : Dict → K → JVal → Dict
  | [], k, v => [(k, v)]
  | (k1, v1) :: d, k, v => if k1 = k then (k, v) :: d else (k1, v1) :: dset d k v

/-- Python dictionary lookup `d.get(k)` restricted to present keys: `some v`
when the key is bound, `none` when it is absent. -/
def dget : Dict → K → Option JVal
  | [], _ => none
  | (k1, v1) :: d, k => if k1 = k then some v1 else dget d k

/-- Key-presence test, `k in d` in Python. -/
def hasKey (d : Dict) (k : K) : Bool := (dget d k).isSome

/-- Python dictionary merge `{**a, **b}`: the bindings of `b` override those
of `a`. -/
def dmerge (a b : Dict) : Dict := b.foldl (fun acc p => dset acc p.1 p.2) a

/-- Lift an optional string to a JSON value the way Python serialises the
metadata fields: `None` becomes null, a string stays a string. -/
def jopt : Option Str → JVal
  | none => JVal.null
  | some s => JVal.str s

/-! Transport layer: `run_curl`. -/

/-- Outcome of the `subprocess.run` call inside `run_curl`: the call either
raises (timeout or other exception) or returns captured standard output. -/
inductive CurlOutcome where
  | timeout
  | curlErr
  | ok (stdout : Str)

/-- Status-code sentinel appended by the `-w` flag in `run_curl`. -/
def HTTP_CODE_MARKER : Str := toL "__HTTP_CODE__"

/-- Python `s.rsplit(mk, 1)` restricted to one split: `some (before, after)`
at the last occurrence of `mk`, `none` when `mk` does not occur. -/
def rsplitLast (mk : Str) : Str → Option (Str × Str)
  | [] => if mk.isEmpty then some ([], []) else none
  | a :: as =>
    match rsplitLast mk as with
    | some (pre, suf) => some (a :: pre, suf)
    | none => if mk.isPrefixOf (a :: as) then some ([], (a :: as).drop mk.length) else none

/-- Fold a digit string into the natural number it denotes. -/
def natOfDigits (s : Str) : Nat := s.foldl (fun a c => a * 10 + (c.toNat - 48)) 0

/-- Embedding of `int(code_str.strip()) if code_str.strip().isdigit() else 0`. -/
def parseCode (s : Str) : Nat :=
  let cs := pyStrip s
  if (!cs.isEmpty) && cs.all Char.isDigit then natOfDigits cs else 0

/-- Embedding of `run_curl`: on a transport-level failure (timeout or
exception) return `(None, 0)`; on a transport success split the captured
output at the last occurrence of the status sentinel, strip the body, and
parse the trailing status code (0 when the sentinel is absent or the code is
not numeric). -/
def run_curl : CurlOutcome → Option Str × Nat
  | CurlOutcome.timeout => (none, 0)
  | CurlOutcome.curlErr => (none, 0)
  | CurlOutcome.ok out =>
    match rsplitLast HTTP_CODE_MARKER out with
    | some (body, codeStr) => (some (pyStrip body), parseCode codeStr)
    | none => (some (pyStrip out), 0)

/-! Git resolver: `process_git`.  The subprocess outcomes are oracles:
`cloneRes` is the `run_cmd` result of the clone, `dirExists` the
`os.path.isdir(tmpdir)` test, and `commitDate`, `shaRes`, `tagsOut` the
results of the three follow-up `git` queries. -/

/-- Accumulating helper for the newline split. -/
def splitNlGo : Str → Str → List Str
  | [], acc => [acc.reverse]
  | c :: cs, acc => if c = '\n' then acc.reverse :: splitNlGo cs [] else splitNlGo cs (c :: acc)

/-- Python `tags_output.split('\n')`. -/
def splitNl (s : Str) : List Str := splitNlGo s []

/-- Embedding of `[t.strip() for t in tags_output.split('\n') if t.strip()]`
followed by taking the first element. -/
def firstTagOf (s : Str) : Option Str :=
  (((splitNl s).map pyStrip).filter (fun t => !t.isEmpty)).head?

/-- Value stored in `last_tag` by `process_git` given the `git tag` output
oracle. -/
def gitTagVal (tagsOut : Option Str) : JVal :=
  match tagsOut with
  | none => JVal.null
  | some out =>
    if out.isEmpty then JVal.null
    else
      match firstTagOf out with
      | some t => JVal.str t
      | none => JVal.null

/-- Embedding of `process_git` (lines 183-226): the initial metadata
dictionary has exactly the keys `last_commit`, `last_commit_sha`, `last_tag`
bound to null; on clone failure with an absent target directory the function
adds `error = "clone_failed"` and returns; otherwise each of the three
follow-up queries updates its own field when its result is truthy. -/
def process_git (cloneRes : Option Str) (dirExists : Bool)
    (commitDate shaRes tagsOut : Option Str) : Dict :=
  let meta : Dict :=
    [(K.last_commit, JVal.null), (K.last_commit_sha, JVal.null), (K.last_tag, JVal.null)]
  if cloneRes.isNone && !dirExists then
    dset meta K.error (JVal.str (toL "clone_failed"))
  else
    let m1 := if truthy commitDate then dset meta K.last_commit (jopt commitDate) else meta
    let m2 := if truthy shaRes then dset m1 K.last_commit_sha (jopt shaRes) else m1
    match tagsOut with
    | none => m2
    | some out =>
      if out.isEmpty then m2
      else
        match firstTagOf out with
        | some t => dset m2 K.last_tag (JVal.str t)
        | none => m2

/-! Fossil tag selection from a Git mirror: `_latest_tag_from_git_mirror`. -/

/-- Python `re.search(r'\d', t)`: the tag contains at least one digit. -/
def hasDigit (t : Str) : Bool := t.any Char.isDigit

/-- Accumulating pass of `re.findall(r'\d+', t)` followed by `int` on each
run: collect the maximal digit runs of the string, in order, as numbers. -/
def digitRunsAux : Str → Option Nat → List Nat
  | [], none => []
  | [], some n => [n]
  | c :: cs, acc =>
    if c.isDigit then digitRunsAux cs (some ((acc.getD 0) * 10 + (c.toNat - 48)))
    else
      match acc with
      | none => digitRunsAux cs none
      | some n => n :: digitRunsAux cs none

/-- Embedding of `version_key(t) = [int(n) for n in re.findall(r'\d+', t)]`. -/
def version_key (t : Str) : List Nat := digitRunsAux t none

/-- Python comparison of two `int` lists: elementwise, with a strict prefix
smaller than the longer list. -/
def keyLt : List Nat → List Nat → Bool
  | [], [] => false
  | [], _ :: _ => true
  | _ :: _, [] => false
  | a :: as, b :: bs => if a < b then true else if b < a then false else keyLt as bs

/-- Fold computing `sorted(tags, key=version_key, reverse=True)[0]`: a stable
descending sort puts the first element with a maximal key in front, which is
exactly the element this left fold keeps (a later element replaces the
current best only when its key is strictly greater). -/
def bestTag : Str → List Str → Str
  | b, [] => b
  | b, t :: ts => bestTag (if keyLt (version_key b) (version_key t) then t else b) ts

/-- Embedding of the selection core of `_latest_tag_from_git_mirror`
(lines 297-311), starting from the tag names extracted from the
`git ls-remote` output lines: discard the tags without a digit, return
`None` when nothing is left, otherwise the maximum under component-wise
numeric comparison (first occurrence on ties). -/
def latest_tag_select (raw : List Str) : Option Str :=
  let tags := raw.filter hasDigit
  match tags with
  | [] => none
  | h :: rest => some (bestTag h rest)

/-! Fossil resolver cascades.  The network and JSON-parsing outcomes are
oracle arguments; the control flow on those outcomes is the embedding. -/

/-- Initial date dictionary built by `process_fossil` before calling
`_fetch_fossil_date`. -/
def mkMeta0 : Dict := [(K.last_commit, JVal.null), (K.last_commit_sha, JVal.null)]

/-- Initial tag dictionary built by `process_fossil` before calling
`_fetch_fossil_tag`. -/
def tagMeta0 : Dict := [(K.last_tag, JVal.null)]

/-- Truncation `sha[:10] if sha else None` applied to the revision id parsed
from the Fossil JSON timeline. -/
def fossilSha10 (sha : Option Str) : Option Str :=
  if truthy sha then sha.map (fun s => s.take 10) else none

/-- Value of the local `fossil_date` after tier 1 of `_fetch_fossil_date`:
the parsed timestamp, available only behind the `body and http_code == 200`
guard. -/
def tier1Date (body1 : Option Str) (code1 : Nat) (parse1 : Option Str × Option Str) : Option Str :=
  if truthy body1 && (code1 == 200) then parse1.1 else none

/-- Value of the local `github_date` after tier 2 of `_fetch_fossil_date`:
the mirror commit date, available only when the repository root has a
registered Git mirror. -/
def tier2Date (mirrored : Bool) (gd : Option Str) : Option Str :=
  if mirrored then gd else none

/-- Embedding of `_fetch_fossil_date` (lines 416-488).  Oracles: `body1`,
`code1` are the `run_curl` outcome for the JSON timeline URL and `parse1`
the `(timestamp-or-mtime, uuid-or-hash)` pair parsed from its JSON body
(each component `none` when missing or on a parse error); `mirrored` is the
`base in FOSSIL_GIT_MIRRORS` test and `gd`, `gs` the `_github_api_commit`
result for the mirror; `htmlBody`, `htmlCode` are the `run_curl` outcome for
the HTML timeline page and `htmlParse` the `parse_fossil_date_from_html`
result on that body.  Tier 1 is consulted only behind the
`body and http_code == 200` guard; when both tier 1 and the mirror yield a
date the mirror wins; the HTML tier runs only when both failed and marks its
result approximate; when everything fails the error code is recorded. -/
def fetchFossilDate (body1 : Option Str) (code1 : Nat) (parse1 : Option Str × Option Str)
    (mirrored : Bool) (gd gs : Option Str)
    (htmlBody : Option Str) (htmlCode : Nat) (htmlParse : Option Str × Option Str)
    (meta : Dict) : Dict :=
  let fossil_date : Option Str := tier1Date body1 code1 parse1
  let fossil_sha : Option Str :=
    if truthy body1 && (code1 == 200) then fossilSha10 parse1.2 else none
  let github_date : Option Str := tier2Date mirrored gd
  let github_sha : Option Str := if mirrored then gs else none
  if truthy github_date then
    dset (dset meta K.last_commit (jopt github_date)) K.last_commit_sha (jopt github_sha)
  else if truthy fossil_date then
    dset (dset meta K.last_commit (jopt fossil_date)) K.last_commit_sha (jopt fossil_sha)
  else if truthy htmlBody && (htmlCode == 200) && truthy htmlParse.1 then
    dset (dset (dset meta K.last_commit (jopt htmlParse.1))
        K.last_commit_sha (jopt htmlParse.2))
      K.last_commit_approximate (JVal.jbool true)
  else
    dset meta K.error (JVal.str (toL "date_not_found"))

/-- Embedding of `_fetch_fossil_tag` (lines 492-527).  Oracles: `tb`, `tc`
are the `run_curl` outcome for the JSON taglist and `tp` the first tag name
parsed from its body (`none` on parse failure or an empty tag array); `tlb`,
`tlc`, `tlp` and `blb`, `blc`, `blp` the analogous outcomes for the HTML
taglist and branch-list pages with `_pick_version_tag` applied to the body;
`tmir` the mirror-registration test and `mtag` the
`_latest_tag_from_git_mirror` result. -/
def fossilTagChoice (tb : Option Str) (tc : Nat) (tp : Option Str)
    (tlb : Option Str) (tlc : Nat) (tlp : Option Str)
    (blb : Option Str) (blc : Nat) (blp : Option Str)
    (tmir : Bool) (mtag : Option Str) : Option Str :=
  let tag1 : Option Str := if truthy tb && (tc == 200) then tp else none
  let tag2 : Option Str :=
    if truthy tag1 then tag1
    else
      let t := if truthy tlb && (tlc == 200) then tlp else none
      if truthy t then t
      else if truthy blb && (blc == 200) then blp else none
  if truthy tag2 then tag2 else if tmir then mtag else none

def fetchFossilTag (tb : Option Str) (tc : Nat) (tp : Option Str)
    (tlb : Option Str) (tlc : Nat) (tlp : Option Str)
    (blb : Option Str) (blc : Nat) (blp : Option Str)
    (tmir : Bool) (mtag : Option Str) (meta : Dict) : Dict :=
  let tag3 : Option Str := fossilTagChoice tb tc tp tlb tlc tlp blb blc blp tmir mtag
  if truthy tag3 then dset meta K.last_tag (jopt tag3) else meta

/-- Embedding of the body of `process_fossil` after the cache lookups: the
date dictionary and the tag dictionary are built independently and merged
with `{**date_meta, **tag_meta}`. -/
def process_fossil_meta (body1 : Option Str) (code1 : Nat) (parse1 : Option Str × Option Str)
    (mirrored : Bool) (gd gs : Option Str)
    (htmlBody : Option Str) (htmlCode : Nat) (htmlParse : Option Str × Option Str)
    (tb : Option Str) (tc : Nat) (tp : Option Str)
    (tlb : Option Str) (tlc : Nat) (tlp : Option Str)
    (blb : Option Str) (blc : Nat) (blp : Option Str)
    (tmir : Bool) (mtag : Option Str) : Dict :=
  dmerge (fetchFossilDate body1 code1 parse1 mirrored gd gs htmlBody htmlCode htmlParse mkMeta0)
    (fetchFossilTag tb tc tp tlb tlc tlp blb blc blp tmir mtag tagMeta0)

/-- Metadata produced in `main` for an unknown source method. -/
def unknown_meta : Dict :=
  [(K.last_commit, JVal.null), (K.last_commit_sha, JVal.null), (K.last_tag, JVal.null),
   (K.error, JVal.str (toL "unknown_method"))]

/-- Embedding of the `enriched_source` construction in `main`:
`{**source, "reachable": r, "archived": a, "latest_release": l, **meta}`. -/
def enrich (source : Dict) (reach : Bool) (arch rel : JVal) (meta : Dict) : Dict :=
  dmerge (dset (dset (dset source K.reachable (JVal.jbool reach))
      K.archived arch)
    K.latest_release rel) meta

/-! Caching layer of `process_fossil` (lines 530-553): the date cache is
keyed by the full source URL, the tag cache by the normalized repository
root.  The fetch results are oracles `fD` (per URL) and `fT` (per root); the
`dateFetches` and `tagFetches` fields record one entry per executed fetch. -/

structure RunState where
  dateCache : List (Str × Dict)
  repoCache : List (Str × Dict)
  dateFetches : List Str
  tagFetches : List Str

def lookupC : List (Str × Dict) → Str → Option Dict
  | [], _ => none
  | (k1, v) :: l, k => if k1 = k then some v else lookupC l k

def initState : RunState := ⟨[], [], [], []⟩

/-- Embedding of one `process_fossil` call: consult the per-module date
cache under the exact source URL, and the per-repository tag cache under
`extract_fossil_base url`; on a miss run the corresponding cascade (recorded
in the fetch trace) and fill the cache; return the merged metadata. -/
def processOne (fD fT : Str → Dict) (st : RunState) (url : Str) : RunState × Dict :=
  let base := extract_fossil_base url
  let step1 : RunState × Dict :=
    match lookupC st.dateCache url with
    | some d => (st, d)
    | none =>
      let d := fD url
      ({ st with dateCache := (url, d) :: st.dateCache, dateFetches := url :: st.dateFetches }, d)
  let st1 := step1.1
  let step2 : RunState × Dict :=
    match lookupC st1.repoCache base with
    | some d => (st1, d)
    | none =>
      let d := fT base
      ({ st1 with repoCache := (base, d) :: st1.repoCache, tagFetches := base :: st1.tagFetches }, d)
  (step2.1, dmerge step1.2 step2.2)

/-- Processing of a whole run: fold `process_fossil` over the Fossil source
URLs of the catalog, starting from empty caches. -/
def processAll (fD fT : Str → Dict) (urls : List Str) : RunState :=
  urls.foldl (fun st url => (processOne fD fT st url).1) initState

/-! Dictionary lemmas. -/

theorem dget_dset_self (d : Dict) (k : K) (v : JVal) : dget (dset d k v) k = some v := by
  induction d with
  | nil => simp [dset, dget]
  | cons p d ih =>
    obtain ⟨k1, v1⟩ := p
    by_cases h : k1 = k
    · simp [dset, h, dget]
    · simp [dset, h, dget, ih]

theorem dget_dset_ne (d : Dict) (k k1 : K) (v : JVal) (h : k1 ≠ k) :
    dget (dset d k1 v) k = dget d k := by
  induction d with
  | nil => simp [dset, dget, h]
  | cons p d ih =>
    obtain ⟨k2, v2⟩ := p
    by_cases h2 : k2 = k1
    · subst h2
      simp [dset, dget, h]
    · by_cases h3 : k2 = k
      · subst h3
        simp [dset, dget, h2]
      · simp [dset, dget, h2, h3, ih]

theorem hasKey_dset (d : Dict) (k k1 : K) (v : JVal) :
    hasKey (dset d k1 v) k = (decide (k1 = k) || hasKey d k) := by
  by_cases h : k1 = k
  · subst h
    simp [hasKey, dget_dset_self]
  · simp [hasKey, dget_dset_ne d k k1 v h, h]

theorem hasKey_cons (k1 : K) (v1 : JVal) (d : Dict) (k : K) :
    hasKey ((k1, v1) :: d) k = (decide (k1 = k) || hasKey d k) := by
  by_cases h : k1 = k
  · simp [hasKey, dget, h]
  · simp [hasKey, dget, h]

theorem hasKey_dmerge (a b : Dict) (k : K) :
    hasKey (dmerge a b) k = (hasKey a k || hasKey b k) := by
  induction b generalizing a with
  | nil => simp [dmerge, hasKey, dget]
  | cons p b ih =>
    obtain ⟨k1, v1⟩ := p
    have hstep : dmerge a ((k1, v1) :: b) = dmerge (dset a k1 v1) b := by
      simp [dmerge]
    rw [hstep, ih, hasKey_dset, hasKey_cons, Bool.or_assoc, Bool.or_left_comm]

/-! Helper facts about the tier guards of the date cascade. -/

theorem truthy_tier2_false (mirrored : Bool) (gd : Option Str)
    (h : mirrored = false ∨ truthy gd = false) : truthy (tier2Date mirrored gd) = false := by
  rcases h with h | h
  · simp [tier2Date, h, truthy]
  · cases mirrored
    · simp [tier2Date, truthy]
    · simpa [tier2Date] using h

/-- Shape of the date cascade result when the registered mirror yields a
date: the mirror branch is taken. -/
theorem fetchFossilDate_github (body1 : Option Str) (code1 : Nat)
    (parse1 : Option Str × Option Str) (gd gs : Option Str)
    (hb : Option Str) (hc : Nat) (hp : Option Str × Option Str) (meta : Dict)
    (h2 : truthy gd = true) :
    fetchFossilDate body1 code1 parse1 true gd gs hb hc hp meta
      = dset (dset meta K.last_commit (jopt gd)) K.last_commit_sha (jopt gs) := by
  simp [fetchFossilDate, tier2Date, h2]

/-- Shape of the date cascade result when the mirror yields nothing and
tier 1 yields a date: the native Fossil branch is taken. -/
theorem fetchFossilDate_fossil (body1 : Option Str) (code1 : Nat)
    (parse1 : Option Str × Option Str) (mirrored : Bool) (gd gs : Option Str)
    (hb : Option Str) (hc : Nat) (hp : Option Str × Option Str) (meta : Dict)
    (hg : truthy (tier2Date mirrored gd) = false)
    (h2 : (truthy body1 && (code1 == 200)) = true) (h3 : truthy parse1.1 = true) :
    fetchFossilDate body1 code1 parse1 mirrored gd gs hb hc hp meta
      = dset (dset meta K.last_commit (jopt parse1.1)) K.last_commit_sha
          (jopt (fossilSha10 parse1.2)) := by
  have hv : tier1Date body1 code1 parse1 = parse1.1 := by simp [tier1Date, h2]
  simp [fetchFossilDate, hg, hv, h2, h3]

/-- Shape of the date cascade result when both tiers fail and the HTML page
yields a date: the approximate branch is taken. -/
theorem fetchFossilDate_html (body1 : Option Str) (code1 : Nat)
    (parse1 : Option Str × Option Str) (mirrored : Bool) (gd gs : Option Str)
    (hb : Option Str) (hc : Nat) (hp : Option Str × Option Str) (meta : Dict)
    (hg : truthy (tier2Date mirrored gd) = false)
    (hf : truthy (tier1Date body1 code1 parse1) = false)
    (hh : (truthy hb && (hc == 200) && truthy hp.1) = true) :
    fetchFossilDate body1 code1 parse1 mirrored gd gs hb hc hp meta
      = dset (dset (dset meta K.last_commit (jopt hp.1)) K.last_commit_sha (jopt hp.2))
          K.last_commit_approximate (JVal.jbool true) := by
  simp [fetchFossilDate, hg, hf, hh]

/-- Shape of the date cascade result when all three tiers fail: the error
code is recorded. -/
theorem fetchFossilDate_err (body1 : Option Str) (code1 : Nat)
    (parse1 : Option Str × Option Str) (mirrored : Bool) (gd gs : Option Str)
    (hb : Option Str) (hc : Nat) (hp : Option Str × Option Str) (meta : Dict)
    (hg : truthy (tier2Date mirrored gd) = false)
    (hf : truthy (tier1Date body1 code1 parse1) = false)
    (hh : (truthy hb && (hc == 200) && truthy hp.1) = false) :
    fetchFossilDate body1 code1 parse1 mirrored gd gs hb hc hp meta
      = dset meta K.error (JVal.str (toL "date_not_found")) := by
  simp [fetchFossilDate, hg, hf, hh]

/-- Claim C2: in the Fossil date cascade, whenever both the Fossil JSON
timeline API (tier 1) and the registered Git mirror API (tier 2) yield a
commit date for the same module, the merged metadata's `last_commit` and
`last_commit_sha` equal the mirror's date and short hash, never the native
Fossil ones (the first conjunct holds whatever tier 1 returned, covering in
particular the case where it also yielded a date); when exactly one of the
two tiers yields a result, that result is used. -/
theorem fossil_mirror_wins (body1 : Option Str) (code1 : Nat) (parse1 : Option Str × Option Str)
    (mirrored : Bool) (gd gs : Option Str)
    (hb : Option Str) (hc : Nat) (hp : Option Str × Option Str) (meta : Dict) :
    (mirrored = true → truthy gd = true →
      dget (fetchFossilDate body1 code1 parse1 mirrored gd gs hb hc hp meta) K.last_commit
          = some (jopt gd) ∧
      dget (fetchFossilDate body1 code1 parse1 mirrored gd gs hb hc hp meta) K.last_commit_sha
          = some (jopt gs)) ∧
    ((mirrored = false ∨ truthy gd = false) →
      (truthy body1 && (code1 == 200)) = true → truthy parse1.1 = true →
      dget (fetchFossilDate body1 code1 parse1 mirrored gd gs hb hc hp meta) K.last_commit
          = some (jopt parse1.1) ∧
      dget (fetchFossilDate body1 code1 parse1 mirrored gd gs hb hc hp meta) K.last_commit_sha
          = some (jopt (fossilSha10 parse1.2))) := by
  constructor
  · intro h1 h2
    subst h1
    rw [fetchFossilDate_github body1 code1 parse1 gd gs hb hc hp meta h2]
    constructor
    · rw [dget_dset_ne _ _ _ _ (by decide), dget_dset_self]
    · rw [dget_dset_self]
  · intro h1 h2 h3
    have hg : truthy (tier2Date mirrored gd) = false := truthy_tier2_false mirrored gd h1
    rw [fetchFossilDate_fossil body1 code1 parse1 mirrored gd gs hb hc hp meta hg h2 h3]
    constructor
    · rw [dget_dset_ne _ _ _ _ (by decide), dget_dset_self]
    · rw [dget_dset_self]

/-- Witness for C2 at concrete tier outcomes: both tiers yield a date and
the mirror result is the one recorded. -/
theorem fossil_mirror_wins_witness :
    dget (fetchFossilDate (some (toL "{}")) 200 (some (toL "2023-05-05 01:02:03"), some (toL "ffffaaaa00"))
        true (some (toL "2024-02-02 10:00:00")) (some (toL "abcdef0"))
        none 0 (none, none) mkMeta0) K.last_commit
      = some (jopt (some (toL "2024-02-02 10:00:00"))) ∧
    dget (fetchFossilDate (some (toL "{}")) 200 (some (toL "2023-05-05 01:02:03"), some (toL "ffffaaaa00"))
        true (some (toL "2024-02-02 10:00:00")) (some (toL "abcdef0"))
        none 0 (none, none) mkMeta0) K.last_commit_sha
      = some (jopt (some (toL "abcdef0"))) :=
  (fossil_mirror_wins (some (toL "{}")) 200 (some (toL "2023-05-05 01:02:03"), some (toL "ffffaaaa00"))
    true (some (toL "2024-02-02 10:00:00")) (some (toL "abcdef0")) none 0 (none, none) mkMeta0).1
    rfl (by decide)

/-- Claim C6: in the Fossil date cascade the whole-repository HTML fallback
is consulted only when both the JSON API tier and the mirror tier failed
(when either of them yields a date, the result does not depend on the HTML
oracle at all and carries no `last_commit_approximate` key); when the HTML
fallback yields a date, the result carries `last_commit_approximate = true`;
when all three tiers fail, the metadata carries `error = "date_not_found"`
with both date fields null. -/
theorem fossil_html_fallback_last_resort (body1 : Option Str) (code1 : Nat)
    (parse1 : Option Str × Option Str) (mirrored : Bool) (gd gs : Option Str)
    (hb : Option Str) (hc : Nat) (hp : Option Str × Option Str) :
    ((truthy (tier2Date mirrored gd) = true ∨ truthy (tier1Date body1 code1 parse1) = true) →
      (∀ hb2 hc2 hp2,
        fetchFossilDate body1 code1 parse1 mirrored gd gs hb hc hp mkMeta0
          = fetchFossilDate body1 code1 parse1 mirrored gd gs hb2 hc2 hp2 mkMeta0) ∧
      dget (fetchFossilDate body1 code1 parse1 mirrored gd gs hb hc hp mkMeta0)
          K.last_commit_approximate = none) ∧
    (truthy (tier2Date mirrored gd) = false →
      truthy (tier1Date body1 code1 parse1) = false →
      (truthy hb && (hc == 200) && truthy hp.1) = true →
      dget (fetchFossilDate body1 code1 parse1 mirrored gd gs hb hc hp mkMeta0)
          K.last_commit_approximate = some (JVal.jbool true) ∧
      dget (fetchFossilDate body1 code1 parse1 mirrored gd gs hb hc hp mkMeta0)
          K.last_commit = some (jopt hp.1) ∧
      dget (fetchFossilDate body1 code1 parse1 mirrored gd gs hb hc hp mkMeta0)
          K.last_commit_sha = some (jopt hp.2)) ∧
    (truthy (tier2Date mirrored gd) = false →
      truthy (tier1Date body1 code1 parse1) = false →
      (truthy hb && (hc == 200) && truthy hp.1) = false →
      dget (fetchFossilDate body1 code1 parse1 mirrored gd gs hb hc hp mkMeta0)
          K.error = some (JVal.str (toL "date_not_found")) ∧
      dget (fetchFossilDate body1 code1 parse1 mirrored gd gs hb hc hp mkMeta0)
          K.last_commit = some JVal.null ∧
      dget (fetchFossilDate body1 code1 parse1 mirrored gd gs hb hc hp mkMeta0)
          K.last_commit_sha = some JVal.null) := by
  refine ⟨?_, ?_, ?_⟩
  · intro h1
    rcases h1 with h1 | h1
    · have hm : mirrored = true := by
        cases mirrored
        · simp [tier2Date, truthy] at h1
        · rfl
      subst hm
      have h2 : truthy gd = true := by simpa [tier2Date] using h1
      constructor
      · intro hb2 hc2 hp2
        rw [fetchFossilDate_github body1 code1 parse1 gd gs hb hc hp mkMeta0 h2,
          fetchFossilDate_github body1 code1 parse1 gd gs hb2 hc2 hp2 mkMeta0 h2]
      · rw [fetchFossilDate_github body1 code1 parse1 gd gs hb hc hp mkMeta0 h2]
        rw [dget_dset_ne _ _ _ _ (by decide), dget_dset_ne _ _ _ _ (by decide)]
        simp [mkMeta0, dget]
    · by_cases hg : truthy (tier2Date mirrored gd) = true
      · have hm : mirrored = true := by
          cases mirrored
          · simp [tier2Date, truthy] at hg
          · rfl
        subst hm
        have h2 : truthy gd = true := by simpa [tier2Date] using hg
        constructor
        · intro hb2 hc2 hp2
          rw [fetchFossilDate_github body1 code1 parse1 gd gs hb hc hp mkMeta0 h2,
            fetchFossilDate_github body1 code1 parse1 gd gs hb2 hc2 hp2 mkMeta0 h2]
        · rw [fetchFossilDate_github body1 code1 parse1 gd gs hb hc hp mkMeta0 h2]
          rw [dget_dset_ne _ _ _ _ (by decide), dget_dset_ne _ _ _ _ (by decide)]
          simp [mkMeta0, dget]
      · have hg2 : truthy (tier2Date mirrored gd) = false := by
          cases hh : truthy (tier2Date mirrored gd)
          · rfl
          · exact absurd hh hg
        have hgt : (truthy body1 && (code1 == 200)) = true := by
          by_contra hx
          have hx2 : (truthy body1 && (code1 == 200)) = false := by
            cases hh : (truthy body1 && (code1 == 200))
            · rfl
            · exact absurd hh hx
          have hv : tier1Date body1 code1 parse1 = none := by
            simp only [tier1Date, hx2, Bool.false_eq_true, if_false]
          rw [hv] at h1
          simp [truthy] at h1
        have h3 : truthy parse1.1 = true := by
          have hv : tier1Date body1 code1 parse1 = parse1.1 := by simp [tier1Date, hgt]
          rwa [hv] at h1
        constructor
        · intro hb2 hc2 hp2
          rw [fetchFossilDate_fossil body1 code1 parse1 mirrored gd gs hb hc hp mkMeta0 hg2 hgt h3,
            fetchFossilDate_fossil body1 code1 parse1 mirrored gd gs hb2 hc2 hp2 mkMeta0 hg2 hgt h3]
        · rw [fetchFossilDate_fossil body1 code1 parse1 mirrored gd gs hb hc hp mkMeta0 hg2 hgt h3]
          rw [dget_dset_ne _ _ _ _ (by decide), dget_dset_ne _ _ _ _ (by decide)]
          simp [mkMeta0, dget]
  · intro hg hf hh
    rw [fetchFossilDate_html body1 code1 parse1 mirrored gd gs hb hc hp mkMeta0 hg hf hh]
    refine ⟨?_, ?_, ?_⟩
    · rw [dget_dset_self]
    · rw [dget_dset_ne _ _ _ _ (by decide), dget_dset_ne _ _ _ _ (by decide), dget_dset_self]
    · rw [dget_dset_ne _ _ _ _ (by decide), dget_dset_self]
  · intro hg hf hh
    rw [fetchFossilDate_err body1 code1 parse1 mirrored gd gs hb hc hp mkMeta0 hg hf hh]
    refine ⟨?_, ?_, ?_⟩
    · rw [dget_dset_self]
    · rw [dget_dset_ne _ _ _ _ (by decide)]
      simp [mkMeta0, dget]
    · rw [dget_dset_ne _ _ _ _ (by decide)]
      simp [mkMeta0, dget]

/-- Witness for C6 at concrete tier outcomes: tiers 1 and 2 fail, the HTML
fallback succeeds and the result is flagged approximate. -/
theorem fossil_html_fallback_last_resort_witness :
    dget (fetchFossilDate none 0 (none, none) false none none
        (some (toL "<html>")) 200 (some (toL "2024-01-15 14:23:07"), some (toL "a1b2c3d4e5"))
        mkMeta0) K.last_commit_approximate = some (JVal.jbool true) ∧
    dget (fetchFossilDate none 0 (none, none) false none none
        (some (toL "<html>")) 200 (some (toL "2024-01-15 14:23:07"), some (toL "a1b2c3d4e5"))
        mkMeta0) K.last_commit = some (jopt (some (toL "2024-01-15 14:23:07"))) ∧
    dget (fetchFossilDate none 0 (none, none) false none none
        (some (toL "<html>")) 200 (some (toL "2024-01-15 14:23:07"), some (toL "a1b2c3d4e5"))
        mkMeta0) K.last_commit_sha = some (jopt (some (toL "a1b2c3d4e5"))) :=
  (fossil_html_fallback_last_resort none 0 (none, none) false none none
    (some (toL "<html>")) 200 (some (toL "2024-01-15 14:23:07"), some (toL "a1b2c3d4e5"))).2.1
    (by decide) (by decide) (by decide)

/-- Claim C8: on clone failure (the clone command yielded no result and the
target directory is absent) `process_git` records `error = "clone_failed"`
with all three freshness fields null; otherwise the `error` key is absent
and each of the three follow-up queries fills its own field independently of
the others (the recorded value of each field is a function of that query's
outcome alone, so in particular a missing tag cannot invalidate a found
commit date). -/
theorem process_git_error_tolerance (cloneRes : Option Str) (dirExists : Bool)
    (cd sh tg : Option Str) :
    (cloneRes = none → dirExists = false →
      dget (process_git cloneRes dirExists cd sh tg) K.error
          = some (JVal.str (toL "clone_failed")) ∧
      dget (process_git cloneRes dirExists cd sh tg) K.last_commit = some JVal.null ∧
      dget (process_git cloneRes dirExists cd sh tg) K.last_commit_sha = some JVal.null ∧
      dget (process_git cloneRes dirExists cd sh tg) K.last_tag = some JVal.null) ∧
    ((cloneRes.isNone && !dirExists) = false →
      dget (process_git cloneRes dirExists cd sh tg) K.error = none ∧
      dget (process_git cloneRes dirExists cd sh tg) K.last_commit
          = some (if truthy cd then jopt cd else JVal.null) ∧
      dget (process_git cloneRes dirExists cd sh tg) K.last_commit_sha
          = some (if truthy sh then jopt sh else JVal.null) ∧
      dget (process_git cloneRes dirExists cd sh tg) K.last_tag = some (gitTagVal tg)) := by
  constructor
  · intro h1 h2
    subst h1
    subst h2
    have hshape : process_git none false cd sh tg
        = [(K.last_commit, JVal.null), (K.last_commit_sha, JVal.null),
           (K.last_tag, JVal.null), (K.error, JVal.str (toL "clone_failed"))] := by
      simp [process_git, dset]
    rw [hshape]
    refine ⟨?_, ?_, ?_, ?_⟩ <;> simp [dget]
  · intro h
    refine ⟨?_, ?_, ?_, ?_⟩ <;>
    · simp only [process_git, h, Bool.false_eq_true, if_false]
      rcases tg with _ | out
      · by_cases hcd : truthy cd <;> by_cases hsh : truthy sh <;>
          simp [hcd, hsh, gitTagVal, dget_dset_self, dget_dset_ne, dget]
      · by_cases hout : out.isEmpty <;> rcases hft : firstTagOf out with _ | t <;>
          by_cases hcd : truthy cd <;> by_cases hsh : truthy sh <;>
          simp [hcd, hsh, hout, hft, gitTagVal, dget_dset_self, dget_dset_ne, dget]

/-- Witness for C8: a concrete run whose clone succeeded, whose commit date
and hash queries succeeded, and whose tag query returned nothing, keeps the
found commit date with a null tag and no error key. -/
theorem process_git_error_tolerance_witness :
    dget (process_git (some []) true (some (toL "2024-01-02 03:04:05 +0100"))
        (some (toL "abc1234")) none) K.error = none ∧
    dget (process_git (some []) true (some (toL "2024-01-02 03:04:05 +0100"))
        (some (toL "abc1234")) none) K.last_commit
      = some (if truthy (some (toL "2024-01-02 03:04:05 +0100"))
          then jopt (some (toL "2024-01-02 03:04:05 +0100")) else JVal.null) ∧
    dget (process_git (some []) true (some (toL "2024-01-02 03:04:05 +0100"))
        (some (toL "abc1234")) none) K.last_commit_sha
      = some (if truthy (some (toL "abc1234")) then jopt (some (toL "abc1234")) else JVal.null) ∧
    dget (process_git (some []) true (some (toL "2024-01-02 03:04:05 +0100"))
        (some (toL "abc1234")) none) K.last_tag = some (gitTagVal none) :=
  (process_git_error_tolerance (some []) true (some (toL "2024-01-02 03:04:05 +0100"))
    (some (toL "abc1234")) none).2 (by decide)

/-! Key-presence lemmas used for the EnrichedSource field-set claims. -/

/-- Shape of the date cascade result when the mirror value is truthy,
whatever `mirrored` is. -/
theorem fetchFossilDate_github2 (body1 : Option Str) (code1 : Nat)
    (parse1 : Option Str × Option Str) (mirrored : Bool) (gd gs : Option Str)
    (hb : Option Str) (hc : Nat) (hp : Option Str × Option Str) (meta : Dict)
    (hg : truthy (tier2Date mirrored gd) = true) :
    fetchFossilDate body1 code1 parse1 mirrored gd gs hb hc hp meta
      = dset (dset meta K.last_commit (jopt (tier2Date mirrored gd))) K.last_commit_sha
          (jopt (if mirrored then gs else none)) := by
  simp [fetchFossilDate, hg]

/-- Shape of the date cascade result when the mirror fails and the tier 1
value is truthy. -/
theorem fetchFossilDate_fossil2 (body1 : Option Str) (code1 : Nat)
    (parse1 : Option Str × Option Str) (mirrored : Bool) (gd gs : Option Str)
    (hb : Option Str) (hc : Nat) (hp : Option Str × Option Str) (meta : Dict)
    (hg : truthy (tier2Date mirrored gd) = false)
    (hf : truthy (tier1Date body1 code1 parse1) = true) :
    fetchFossilDate body1 code1 parse1 mirrored gd gs hb hc hp meta
      = dset (dset meta K.last_commit (jopt (tier1Date body1 code1 parse1))) K.last_commit_sha
          (jopt (if truthy body1 && (code1 == 200) then fossilSha10 parse1.2 else none)) := by
  simp [fetchFossilDate, hg, hf]

theorem hasKey_fetchFossilDate (body1 : Option Str) (code1 : Nat)
    (parse1 : Option Str × Option Str) (mirrored : Bool) (gd gs : Option Str)
    (hb : Option Str) (hc : Nat) (hp : Option Str × Option Str) :
    hasKey (fetchFossilDate body1 code1 parse1 mirrored gd gs hb hc hp mkMeta0)
        K.last_commit = true ∧
    hasKey (fetchFossilDate body1 code1 parse1 mirrored gd gs hb hc hp mkMeta0)
        K.last_commit_sha = true ∧
    hasKey (fetchFossilDate body1 code1 parse1 mirrored gd gs hb hc hp mkMeta0)
        K.last_commit_approximate
      = (!truthy (tier2Date mirrored gd) && !truthy (tier1Date body1 code1 parse1)
          && (truthy hb && (hc == 200) && truthy hp.1)) := by
  by_cases hg : truthy (tier2Date mirrored gd) = true
  · rw [fetchFossilDate_github2 body1 code1 parse1 mirrored gd gs hb hc hp mkMeta0 hg]
    simp [hasKey_dset, mkMeta0, hasKey, dget, hg]
  · have hg2 : truthy (tier2Date mirrored gd) = false := by
      cases hx : truthy (tier2Date mirrored gd)
      · rfl
      · exact absurd hx hg
    by_cases hf : truthy (tier1Date body1 code1 parse1) = true
    · rw [fetchFossilDate_fossil2 body1 code1 parse1 mirrored gd gs hb hc hp mkMeta0 hg2 hf]
      simp [hasKey_dset, mkMeta0, hasKey, dget, hg2, hf]
    · have hf2 : truthy (tier1Date body1 code1 parse1) = false := by
        cases hx : truthy (tier1Date body1 code1 parse1)
        · rfl
        · exact absurd hx hf
      by_cases hh : (truthy hb && (hc == 200) && truthy hp.1) = true
      · rw [fetchFossilDate_html body1 code1 parse1 mirrored gd gs hb hc hp mkMeta0 hg2 hf2 hh]
        simp [hasKey_dset, mkMeta0, hasKey, dget, hg2, hf2, hh]
      · have hh2 : (truthy hb && (hc == 200) && truthy hp.1) = false := by
          cases hx : (truthy hb && (hc == 200) && truthy hp.1)
          · rfl
          · exact absurd hx hh
        rw [fetchFossilDate_err body1 code1 parse1 mirrored gd gs hb hc hp mkMeta0 hg2 hf2 hh2]
        simp [hasKey_dset, mkMeta0, hasKey, dget, hg2, hf2, hh2]

theorem hasKey_fetchFossilTag (tb : Option Str) (tc : Nat) (tp : Option Str)
    (tlb : Option Str) (tlc : Nat) (tlp : Option Str)
    (blb : Option Str) (blc : Nat) (blp : Option Str)
    (tmir : Bool) (mtag : Option Str) :
    hasKey (fetchFossilTag tb tc tp tlb tlc tlp blb blc blp tmir mtag tagMeta0) K.last_tag = true ∧
    hasKey (fetchFossilTag tb tc tp tlb tlc tlp blb blc blp tmir mtag tagMeta0)
        K.last_commit_approximate = false := by
  by_cases h : truthy (fossilTagChoice tb tc tp tlb tlc tlp blb blc blp tmir mtag) = true <;>
    simp [fetchFossilTag, h, hasKey_dset, tagMeta0, hasKey, dget]

theorem hasKey_process_git (cloneRes : Option Str) (dirExists : Bool) (cd sh tg : Option Str) :
    hasKey (process_git cloneRes dirExists cd sh tg) K.last_commit = true ∧
    hasKey (process_git cloneRes dirExists cd sh tg) K.last_commit_sha = true ∧
    hasKey (process_git cloneRes dirExists cd sh tg) K.last_tag = true ∧
    hasKey (process_git cloneRes dirExists cd sh tg) K.last_commit_approximate = false := by
  unfold process_git
  split
  · simp [hasKey_dset, hasKey, dget]
  · rcases tg with _ | out
    · by_cases hcd : truthy cd <;> by_cases hsh : truthy sh <;>
        simp [hcd, hsh, hasKey_dset, hasKey, dget]
    · by_cases hout : out.isEmpty <;> rcases hft : firstTagOf out with _ | t <;>
        by_cases hcd : truthy cd <;> by_cases hsh : truthy sh <;>
        simp [hcd, hsh, hout, hft, hasKey_dset, hasKey, dget]

/-- Claim C5, counterexample: a concrete enriched git source produced by the
engine (successful clone, found date and hash, no tags) does not carry the
`last_commit_approximate` key at all, so not every EnrichedSource carries
all four freshness fields as keys. -/
theorem enriched_missing_approx_cex :
    hasKey (enrich [(K.method, JVal.str (toL "git")),
        (K.url, JVal.str (toL "https://github.com/example/repo"))]
      true JVal.null JVal.null
      (process_git (some []) true (some (toL "2024-01-02 03:04:05 +0100"))
        (some (toL "abc1234")) none))
      K.last_commit_approximate = false := by decide

/-- Claim C5, amended: every EnrichedSource produced by the engine (git,
fossil and unknown methods alike) carries `last_commit`, `last_commit_sha`
and `last_tag` as keys (possibly null); the fourth freshness field
`last_commit_approximate`, however, is carried only when the fossil
whole-repository HTML fallback produced the date (given that the source
descriptor itself does not already carry that key), and is otherwise
omitted rather than null. -/
theorem enriched_source_field_keys (source : Dict) (reach : Bool) (arch rel : JVal)
    (cloneRes : Option Str) (dirExists : Bool) (cd sh tg : Option Str)
    (b1 : Option Str) (c1 : Nat) (p1 : Option Str × Option Str) (mir : Bool) (gd gs : Option Str)
    (hb : Option Str) (hc : Nat) (hp : Option Str × Option Str)
    (tb : Option Str) (tc : Nat) (tp : Option Str) (tlb : Option Str) (tlc : Nat) (tlp : Option Str)
    (blb : Option Str) (blc : Nat) (blp : Option Str) (tmir : Bool) (mtag : Option Str) :
    (hasKey (enrich source reach arch rel (process_git cloneRes dirExists cd sh tg))
        K.last_commit = true ∧
     hasKey (enrich source reach arch rel (process_git cloneRes dirExists cd sh tg))
        K.last_commit_sha = true ∧
     hasKey (enrich source reach arch rel (process_git cloneRes dirExists cd sh tg))
        K.last_tag = true) ∧
    (hasKey (enrich source reach arch rel (process_fossil_meta b1 c1 p1 mir gd gs hb hc hp
        tb tc tp tlb tlc tlp blb blc blp tmir mtag)) K.last_commit = true ∧
     hasKey (enrich source reach arch rel (process_fossil_meta b1 c1 p1 mir gd gs hb hc hp
        tb tc tp tlb tlc tlp blb blc blp tmir mtag)) K.last_commit_sha = true ∧
     hasKey (enrich source reach arch rel (process_fossil_meta b1 c1 p1 mir gd gs hb hc hp
        tb tc tp tlb tlc tlp blb blc blp tmir mtag)) K.last_tag = true) ∧
    (hasKey (enrich source reach arch rel unknown_meta) K.last_commit = true ∧
     hasKey (enrich source reach arch rel unknown_meta) K.last_commit_sha = true ∧
     hasKey (enrich source reach arch rel unknown_meta) K.last_tag = true) ∧
    (hasKey source K.last_commit_approximate = false →
      hasKey (enrich source reach arch rel (process_git cloneRes dirExists cd sh tg))
          K.last_commit_approximate = false ∧
      hasKey (enrich source reach arch rel unknown_meta) K.last_commit_approximate = false ∧
      hasKey (enrich source reach arch rel (process_fossil_meta b1 c1 p1 mir gd gs hb hc hp
          tb tc tp tlb tlc tlp blb blc blp tmir mtag)) K.last_commit_approximate
        = (!truthy (tier2Date mir gd) && !truthy (tier1Date b1 c1 p1)
            && (truthy hb && (hc == 200) && truthy hp.1))) := by
  have hg := hasKey_process_git cloneRes dirExists cd sh tg
  have hd := hasKey_fetchFossilDate b1 c1 p1 mir gd gs hb hc hp
  have ht := hasKey_fetchFossilTag tb tc tp tlb tlc tlp blb blc blp tmir mtag
  refine ⟨⟨?_, ?_, ?_⟩, ⟨?_, ?_, ?_⟩, ⟨?_, ?_, ?_⟩, ?_⟩
  · simp [enrich, hasKey_dmerge, hg.1]
  · simp [enrich, hasKey_dmerge, hg.2.1]
  · simp [enrich, hasKey_dmerge, hg.2.2.1]
  · simp [enrich, process_fossil_meta, hasKey_dmerge, hd.1]
  · simp [enrich, process_fossil_meta, hasKey_dmerge, hd.2.1]
  · simp [enrich, process_fossil_meta, hasKey_dmerge, ht.1]
  · have hu : hasKey unknown_meta K.last_commit = true := by decide
    simp [enrich, hasKey_dmerge, hu]
  · have hu : hasKey unknown_meta K.last_commit_sha = true := by decide
    simp [enrich, hasKey_dmerge, hu]
  · have hu : hasKey unknown_meta K.last_tag = true := by decide
    simp [enrich, hasKey_dmerge, hu]
  · intro hs
    refine ⟨?_, ?_, ?_⟩
    · simp [enrich, hasKey_dmerge, hasKey_dset, hg.2.2.2, hs]
    · have hu : hasKey unknown_meta K.last_commit_approximate = false := by decide
      simp [enrich, hasKey_dmerge, hasKey_dset, hu, hs]
    · simp [enrich, process_fossil_meta, hasKey_dmerge, hasKey_dset, hd.2.2, ht.2, hs]

/-- Witness for C5 at a concrete source descriptor lacking the approximate
key: the enriched git, fossil and unknown sources all carry the three
freshness keys, and the fossil one carries the approximate key exactly
because its date came from the HTML fallback. -/
theorem enriched_source_field_keys_witness :
    hasKey (enrich [(K.method, JVal.str (toL "fossil"))] true JVal.null JVal.null
        (process_fossil_meta none 0 (none, none) false none none
          (some (toL "<html>")) 200 (some (toL "2024-01-15 14:23:07"), some (toL "a1b2c3d4e5"))
          none 0 none none 0 none none 0 none false none)) K.last_commit = true ∧
    hasKey (enrich [(K.method, JVal.str (toL "fossil"))] true JVal.null JVal.null
        (process_fossil_meta none 0 (none, none) false none none
          (some (toL "<html>")) 200 (some (toL "2024-01-15 14:23:07"), some (toL "a1b2c3d4e5"))
          none 0 none none 0 none none 0 none false none)) K.last_commit_sha = true ∧
    hasKey (enrich [(K.method, JVal.str (toL "fossil"))] true JVal.null JVal.null
        (process_fossil_meta none 0 (none, none) false none none
          (some (toL "<html>")) 200 (some (toL "2024-01-15 14:23:07"), some (toL "a1b2c3d4e5"))
          none 0 none none 0 none none 0 none false none)) K.last_tag = true :=
  (enriched_source_field_keys [(K.method, JVal.str (toL "fossil"))] true JVal.null JVal.null
    none false none none none none 0 (none, none) false none none
    (some (toL "<html>")) 200 (some (toL "2024-01-15 14:23:07"), some (toL "a1b2c3d4e5"))
    none 0 none none 0 none none 0 none false none).2.1

/-! Order lemmas for the numeric tag comparison. -/

theorem keyLt_irrefl : ∀ a : List Nat, keyLt a a = false := by
  intro a
  induction a with
  | nil => simp [keyLt]
  | cons x xs ih => simp [keyLt, Nat.lt_irrefl, ih]

theorem keyLt_trans : ∀ (a b c : List Nat),
    keyLt a b = true → keyLt b c = true → keyLt a c = true := by
  intro a
  induction a with
  | nil =>
    intro b c h1 h2
    cases c with
    | nil =>
      cases b with
      | nil => simp [keyLt] at h1
      | cons y ys => simp [keyLt] at h2
    | cons z zs => simp [keyLt]
  | cons x xs ih =>
    intro b c h1 h2
    cases b with
    | nil => simp [keyLt] at h1
    | cons y ys =>
      cases c with
      | nil => simp [keyLt] at h2
      | cons z zs =>
        simp only [keyLt] at h1 h2 ⊢
        by_cases hxy : x < y
        · by_cases hyz : y < z
          · have hxz : x < z := Nat.lt_trans hxy hyz
            simp [hxz]
          · by_cases hzy : z < y
            · simp [hyz, hzy] at h2
            · have hxz : x < z := by omega
              simp [hxz]
        · by_cases hyx : y < x
          · simp [hxy, hyx] at h1
          · by_cases hyz : y < z
            · have hxz : x < z := by omega
              simp [hxz]
            · by_cases hzy : z < y
              · simp [hyz, hzy] at h2
              · have h1t : keyLt xs ys = true := by simpa [hxy, hyx] using h1
                have h2t : keyLt ys zs = true := by simpa [hyz, hzy] using h2
                have hxz : ¬ x < z := by omega
                have hzx : ¬ z < x := by omega
                simp [hxz, hzx, ih ys zs h1t h2t]

theorem keyLt_total : ∀ a b : List Nat, keyLt a b = true ∨ keyLt b a = true ∨ a = b := by
  intro a
  induction a with
  | nil =>
    intro b
    cases b with
    | nil => right; right; rfl
    | cons y ys => left; simp [keyLt]
  | cons x xs ih =>
    intro b
    cases b with
    | nil => right; left; simp [keyLt]
    | cons y ys =>
      rcases Nat.lt_trichotomy x y with h | h | h
      · left; simp [keyLt, h]
      · subst h
        rcases ih ys with h2 | h2 | h2
        · left; simp [keyLt, Nat.lt_irrefl, h2]
        · right; left; simp [keyLt, Nat.lt_irrefl, h2]
        · right; right; rw [h2]
      · right; left; simp [keyLt, h]

theorem keyLt_max1 (r b t : List Nat) (h1 : keyLt r t = false) (h2 : keyLt b t = true) :
    keyLt r b = false := by
  cases hx : keyLt r b
  · rfl
  · have h3 := keyLt_trans r b t hx h2
    rw [h1] at h3
    exact Bool.noConfusion h3

theorem keyLt_max2 (r b t : List Nat) (h1 : keyLt r b = false) (h2 : keyLt b t = false) :
    keyLt r t = false := by
  cases hx : keyLt r t
  · rfl
  · rcases keyLt_total t b with h3 | h3 | h3
    · have h4 := keyLt_trans r t b hx h3
      rw [h1] at h4
      exact Bool.noConfusion h4
    · rw [h2] at h3
      exact Bool.noConfusion h3
    · subst h3
      rw [h1] at hx
      exact Bool.noConfusion hx

theorem bestTag_spec : ∀ (ts : List Str) (b : Str),
    bestTag b ts ∈ b :: ts ∧
      ∀ x ∈ b :: ts, keyLt (version_key (bestTag b ts)) (version_key x) = false := by
  intro ts
  induction ts with
  | nil =>
    intro b
    refine ⟨by simp [bestTag], ?_⟩
    intro x hx
    simp at hx
    subst hx
    simp [bestTag, keyLt_irrefl]
  | cons t ts ih =>
    intro b
    by_cases hlt : keyLt (version_key b) (version_key t) = true
    · have hstep : bestTag b (t :: ts) = bestTag t ts := by simp [bestTag, hlt]
      have hm := ih t
      rw [hstep]
      constructor
      · rcases List.mem_cons.mp hm.1 with h | h
        · rw [h]
          exact List.mem_cons_of_mem _ (List.mem_cons_self _ _)
        · exact List.mem_cons_of_mem _ (List.mem_cons_of_mem _ h)
      · intro x hx
        rcases List.mem_cons.mp hx with rfl | hx2
        · exact keyLt_max1 _ _ _ (hm.2 t (List.mem_cons_self _ _)) hlt
        · exact hm.2 x hx2
    · have hltf : keyLt (version_key b) (version_key t) = false := by
        cases hx : keyLt (version_key b) (version_key t)
        · rfl
        · exact absurd hx hlt
      have hstep : bestTag b (t :: ts) = bestTag b ts := by simp [bestTag, hltf]
      have hm := ih b
      rw [hstep]
      constructor
      · rcases List.mem_cons.mp hm.1 with h | h
        · rw [h]
          exact List.mem_cons_self _ _
        · exact List.mem_cons_of_mem _ (List.mem_cons_of_mem _ h)
      · intro x hx
        rcases List.mem_cons.mp hx with rfl | hx2
        · exact hm.2 x (List.mem_cons_self _ _)
        · rcases List.mem_cons.mp hx2 with rfl | hx3
          · exact keyLt_max2 _ _ _ (hm.2 b (List.mem_cons_self _ _)) hltf
          · exact hm.2 x (List.mem_cons_of_mem _ hx3)

/-- Claim C7: the Git-mirror tag selection discards tags containing no
digit, compares the remaining tags by their ordered digit-run sequences
(`version_key`), and returns a remaining tag that no other digit-carrying
candidate exceeds under that component-wise numeric comparison; in
particular, on the candidate list `["1-9-0", "1-21-0", "1-20-1"]` it selects
`"1-21-0"`, not the lexicographic maximum `"1-9-0"`. -/
theorem git_mirror_tag_selection :
    (∀ (raw : List Str) (t : Str), latest_tag_select raw = some t →
      t ∈ raw ∧ hasDigit t = true ∧
        ∀ u ∈ raw, hasDigit u = true →
          keyLt (version_key t) (version_key u) = false) ∧
    latest_tag_select [toL "1-9-0", toL "1-21-0", toL "1-20-1"] = some (toL "1-21-0") := by
  constructor
  · intro raw t h
    unfold latest_tag_select at h
    rcases hf : raw.filter hasDigit with _ | ⟨h0, rest⟩
    · rw [hf] at h
      exact Option.noConfusion h
    · rw [hf] at h
      have ht : t = bestTag h0 rest := by
        have := Option.some.inj h
        exact this.symm
      have hspec := bestTag_spec rest h0
      rw [← ht] at hspec
      have htf : t ∈ raw.filter hasDigit := by
        rw [hf]
        exact hspec.1
      have htm := List.mem_filter.mp htf
      refine ⟨htm.1, htm.2, ?_⟩
      intro u hu hud
      have huf : u ∈ raw.filter hasDigit := List.mem_filter.mpr ⟨hu, hud⟩
      rw [hf] at huf
      exact hspec.2 u huf
  · decide

/-- Witness for C7: the selected tag on the concrete candidate list is one
of the candidates, carries a digit, and no digit-carrying candidate exceeds
it numerically. -/
theorem git_mirror_tag_selection_witness :
    toL "1-21-0" ∈ [toL "1-9-0", toL "1-21-0", toL "1-20-1"] ∧
    hasDigit (toL "1-21-0") = true ∧
    ∀ u ∈ [toL "1-9-0", toL "1-21-0", toL "1-20-1"], hasDigit u = true →
      keyLt (version_key (toL "1-21-0")) (version_key u) = false :=
  git_mirror_tag_selection.1 [toL "1-9-0", toL "1-21-0", toL "1-20-1"] (toL "1-21-0")
    git_mirror_tag_selection.2

/-! Cache invariant of `process_fossil`. -/

/-- Invariant carried through the run: the fetch traces have no duplicates
and every fetched key is present in the corresponding cache. -/
def CacheInv (st : RunState) : Prop :=
  st.dateFetches.Nodup ∧ st.tagFetches.Nodup ∧
    (∀ u ∈ st.dateFetches, (lookupC st.dateCache u).isSome = true) ∧
    (∀ b ∈ st.tagFetches, (lookupC st.repoCache b).isSome = true)

theorem lookupC_cons_isSome (l : List (Str × Dict)) (k x : Str) (d : Dict)
    (h : (lookupC l x).isSome = true ∨ x = k) :
    (lookupC ((k, d) :: l) x).isSome = true := by
  rcases h with h | h
  · by_cases hk : k = x
    · simp [lookupC, hk]
    · simp [lookupC, hk, h]
  · simp [lookupC, h]

theorem cacheInv_step (fD fT : Str → Dict) (st : RunState) (url : Str)
    (h : CacheInv st) : CacheInv (processOne fD fT st url).1 := by
  obtain ⟨hdn, htn, hdc, htc⟩ := h
  unfold processOne
  cases hd : lookupC st.dateCache url with
  | some d =>
    simp only [hd]
    cases ht : lookupC st.repoCache (extract_fossil_base url) with
    | some d2 =>
      simp only [ht]
      exact ⟨hdn, htn, hdc, htc⟩
    | none =>
      simp only [ht]
      refine ⟨hdn, ?_, hdc, ?_⟩
      · rw [List.nodup_cons]
        refine ⟨?_, htn⟩
        intro hmem
        have := htc _ hmem
        rw [ht] at this
        exact Bool.noConfusion this
      · intro b hb
        rcases List.mem_cons.mp hb with rfl | hb2
        · exact lookupC_cons_isSome _ _ _ _ (Or.inr rfl)
        · exact lookupC_cons_isSome _ _ _ _ (Or.inl (htc _ hb2))
  | none =>
    simp only [hd]
    cases ht : lookupC st.repoCache (extract_fossil_base url) with
    | some d2 =>
      simp only [ht]
      refine ⟨?_, htn, ?_, htc⟩
      · rw [List.nodup_cons]
        refine ⟨?_, hdn⟩
        intro hmem
        have := hdc _ hmem
        rw [hd] at this
        exact Bool.noConfusion this
      · intro u hu
        rcases List.mem_cons.mp hu with rfl | hu2
        · exact lookupC_cons_isSome _ _ _ _ (Or.inr rfl)
        · exact lookupC_cons_isSome _ _ _ _ (Or.inl (hdc _ hu2))
    | none =>
      simp only [ht]
      refine ⟨?_, ?_, ?_, ?_⟩
      · rw [List.nodup_cons]
        refine ⟨?_, hdn⟩
        intro hmem
        have := hdc _ hmem
        rw [hd] at this
        exact Bool.noConfusion this
      · rw [List.nodup_cons]
        refine ⟨?_, htn⟩
        intro hmem
        have := htc _ hmem
        rw [ht] at this
        exact Bool.noConfusion this
      · intro u hu
        rcases List.mem_cons.mp hu with rfl | hu2
        · exact lookupC_cons_isSome _ _ _ _ (Or.inr rfl)
        · exact lookupC_cons_isSome _ _ _ _ (Or.inl (hdc _ hu2))
      · intro b hb
        rcases List.mem_cons.mp hb with rfl | hb2
        · exact lookupC_cons_isSome _ _ _ _ (Or.inr rfl)
        · exact lookupC_cons_isSome _ _ _ _ (Or.inl (htc _ hb2))

theorem cacheInv_fold (fD fT : Str → Dict) : ∀ (urls : List Str) (st : RunState),
    CacheInv st → CacheInv (urls.foldl (fun s url => (processOne fD fT s url).1) st) := by
  intro urls
  induction urls with
  | nil => intro st h; exact h
  | cons u us ih =>
    intro st h
    exact ih _ (cacheInv_step fD fT st u h)

theorem count_le_one_of_nodup {α : Type} [BEq α] [LawfulBEq α] (l : List α) (h : l.Nodup)
    (x : α) : l.count x ≤ 1 := by
  induction l with
  | nil => simp
  | cons a l ih =>
    rcases List.nodup_cons.mp h with ⟨hna, hnd⟩
    rw [List.count_cons]
    by_cases hax : a = x
    · subst hax
      have h0 : l.count a = 0 := by
        rw [List.count_eq_zero]
        exact hna
      simp [h0]
    · have hxa : (a == x) = false := by
        rw [beq_eq_false_iff_ne]
        exact hax
      have h1 := ih hnd
      simp [hxa]
      omega

/-- Claim C1: over a whole run of `process_fossil` on any list of Fossil
source URLs, the date cascade `_fetch_fossil_date` is executed at most once
per exact source URL and the tag cascade `_fetch_fossil_tag` at most once
per normalized repository root — so descriptors whose URLs normalize to the
same root share a single tag fetch, and descriptors with the same exact URL
share a single date fetch, later ones reusing the cached result. -/
theorem fossil_fetch_at_most_once (fD fT : Str → Dict) (urls : List Str) (u b : Str) :
    (processAll fD fT urls).dateFetches.count u ≤ 1 ∧
    (processAll fD fT urls).tagFetches.count b ≤ 1 := by
  have hinv : CacheInv (processAll fD fT urls) := by
    apply cacheInv_fold
    refine ⟨List.nodup_nil, List.nodup_nil, ?_, ?_⟩ <;> intro x hx <;> exact absurd hx (List.not_mem_nil x)
  exact ⟨count_le_one_of_nodup _ hinv.1 u, count_le_one_of_nodup _ hinv.2.1 b⟩

/-! String occurrence machinery shared by the sentinel split and the page
marker truncation proofs. -/

theorem mem_of_getLastQ {α : Type} : ∀ (l : List α) (a : α), l.getLast? = some a → a ∈ l := by
  intro l
  induction l with
  | nil =>
    intro a h
    exact Option.noConfusion h
  | cons x xs ih =>
    intro a h
    cases xs with
    | nil =>
      have : x = a := Option.some.inj h
      rw [this]
      exact List.mem_cons_self _ _
    | cons y ys =>
      rw [List.getLast?_cons_cons] at h
      exact List.mem_cons_of_mem _ (ih a h)

theorem suffix_append_cases {α : Type} (t r m : List α) (h : t <:+ r ++ m) :
    t <:+ m ∨ ∃ z, z <:+ r ∧ t = z ++ m := by
  obtain ⟨u, hu⟩ := h
  by_cases hl : u.length ≤ r.length
  · right
    have hur : u <+: r :=
      List.prefix_of_prefix_length_le ⟨t, hu⟩ (List.prefix_append r m) hl
    obtain ⟨z, hz⟩ := hur
    refine ⟨z, ⟨u, hz⟩, ?_⟩
    rw [← hz, List.append_assoc] at hu
    exact List.append_cancel_left hu
  · left
    have hlen : u.length + t.length = r.length + m.length := by
      have h2 := congrArg List.length hu
      simpa [List.length_append] using h2
    exact List.suffix_of_suffix_length_le ⟨u, hu⟩ (List.suffix_append r m) (by omega)

theorem infix_append_cases {α : Type} (p r m : List α) (h : p <:+: r ++ m) :
    p <:+: r ∨ p <:+: m ∨
      ∃ z w, p = z ++ w ∧ z ≠ [] ∧ w ≠ [] ∧ z <:+ r ∧ w <+: m := by
  obtain ⟨t, hpt, htr⟩ := List.infix_iff_prefix_suffix.mp h
  rcases suffix_append_cases t r m htr with h1 | ⟨z, hz, rfl⟩
  · right
    left
    exact List.infix_iff_prefix_suffix.mpr ⟨t, hpt, h1⟩
  · by_cases hl : p.length ≤ z.length
    · left
      have hpz : p <+: z := List.prefix_of_prefix_length_le hpt (List.prefix_append z m) hl
      exact List.infix_iff_prefix_suffix.mpr ⟨z, hpz, hz⟩
    · have hzp : z <+: p :=
        List.prefix_of_prefix_length_le (List.prefix_append z m) hpt (by omega)
      obtain ⟨w, hw⟩ := hzp
      by_cases hznil : z = []
      · right
        left
        subst hznil
        have hpm : p <+: m := by simpa using hpt
        exact hpm.isInfix
      · right
        right
        refine ⟨z, w, hw.symm, hznil, ?_, hz, ?_⟩
        · intro hwnil
          subst hwnil
          have : z = p := by simpa using hw
          rw [this] at hl
          omega
        · rw [← hw] at hpt
          exact (List.prefix_append_right_inj z).mp hpt

theorem rsplitLast_none_of_not_infix (mk : Str) (hmk : mk ≠ []) :
    ∀ s, ¬ mk <:+: s → rsplitLast mk s = none := by
  intro s
  induction s with
  | nil =>
    intro _
    have hie : mk.isEmpty = false := by
      cases mk
      · exact absurd rfl hmk
      · rfl
    simp [rsplitLast, hie]
  | cons a as ih =>
    intro h
    have h1 : ¬ mk <:+: as := fun hc => h (List.infix_cons hc)
    have h2 : ¬ mk <+: (a :: as) := fun hc => h hc.isInfix
    have h3 : mk.isPrefixOf (a :: as) = false := by
      cases hx : mk.isPrefixOf (a :: as)
      · rfl
      · exact absurd ( List.isPrefixOf_iff_prefix.mp hx) h2
    simp [rsplitLast, ih h1, h3]

theorem rsplitLast_cons_of_some (mk : Str) (a : Char) (s p q : Str)
    (h : rsplitLast mk s = some (p, q)) : rsplitLast mk (a :: s) = some (a :: p, q) := by
  simp [rsplitLast, h]

theorem rsplitLast_append_left (mk b s p q : Str)
    (h : rsplitLast mk s = some (p, q)) : rsplitLast mk (b ++ s) = some (b ++ p, q) := by
  induction b with
  | nil => simpa using h
  | cons a bs ih =>
    rw [List.cons_append, rsplitLast_cons_of_some mk a _ _ _ ih, List.cons_append]

theorem rsplitLast_at_head (mk d : Str) (hmk : mk ≠ [])
    (hni : ¬ mk <:+: (mk ++ d).tail) : rsplitLast mk (mk ++ d) = some ([], d) := by
  cases mk with
  | nil => exact absurd rfl hmk
  | cons c cs =>
    have h1 : rsplitLast (c :: cs) (cs ++ d) = none :=
      rsplitLast_none_of_not_infix (c :: cs) hmk _ (by simpa using hni)
    have h2 : (c :: cs).isPrefixOf ((c :: cs) ++ d) = true := by
      rw [ List.isPrefixOf_iff_prefix]
      exact List.prefix_append _ _
    have h3 : ((c :: cs) ++ d).drop (c :: cs).length = d := List.drop_left _ _
    have hstep : rsplitLast (c :: cs) ((c :: cs) ++ d)
        = match rsplitLast (c :: cs) (cs ++ d) with
          | some (pre, suf) => some (c :: pre, suf)
          | none =>
            if (c :: cs).isPrefixOf ((c :: cs) ++ d) then
              some ([], ((c :: cs) ++ d).drop (c :: cs).length)
            else none := rfl
    rw [hstep, h1]
    simp [h2, h3]

theorem marker_not_infix_tail (d : Str) (hd2 : ∀ c ∈ d, c.isDigit = true) :
    ¬ HTTP_CODE_MARKER <:+: (toL "_HTTP_CODE__" ++ d) := by
  intro h
  rcases infix_append_cases HTTP_CODE_MARKER (toL "_HTTP_CODE__") d h with
    h1 | h1 | ⟨z, w, hzw, hz, hw, hzr, hwm⟩
  · have hle := h1.length_le
    have h13 : HTTP_CODE_MARKER.length = 13 := by decide
    have h12 : (toL "_HTTP_CODE__").length = 12 := by decide
    omega
  · have hu : '_' ∈ HTTP_CODE_MARKER := by decide
    have hmem := h1.subset hu
    have := hd2 _ hmem
    exact absurd this (by decide)
  · have hwl : ∃ a, w.getLast? = some a := by
      cases hwx : w.getLast? with
      | none =>
        rw [List.getLast?_eq_none_iff] at hwx
        exact absurd hwx hw
      | some a => exact ⟨a, rfl⟩
    obtain ⟨a, ha⟩ := hwl
    have hm : HTTP_CODE_MARKER.getLast? = some a := by
      rw [hzw, List.getLast?_append, ha]
      rfl
    have hlast : HTTP_CODE_MARKER.getLast? = some '_' := by decide
    rw [hlast] at hm
    have ha2 : a = '_' := (Option.some.inj hm).symm
    subst ha2
    have hmem : '_' ∈ w := mem_of_getLastQ w _ ha
    have hmd : '_' ∈ d := hwm.subset hmem
    have := hd2 _ hmd
    exact absurd this (by decide)

theorem rsplitLast_marker (b d : Str) (hd2 : ∀ c ∈ d, c.isDigit = true) :
    rsplitLast HTTP_CODE_MARKER (b ++ (HTTP_CODE_MARKER ++ d)) = some (b, d) := by
  have he : (HTTP_CODE_MARKER ++ d).tail = toL "_HTTP_CODE__" ++ d := rfl
  have hni : ¬ HTTP_CODE_MARKER <:+: (HTTP_CODE_MARKER ++ d).tail := by
    rw [he]
    exact marker_not_infix_tail d hd2
  have h0 := rsplitLast_at_head HTTP_CODE_MARKER d (by decide) hni
  have h1 := rsplitLast_append_left HTTP_CODE_MARKER b (HTTP_CODE_MARKER ++ d) [] d h0
  simpa using h1

/-! Whitespace and digit facts for the strip and code-parsing steps. -/

theorem isDigit_not_space (c : Char) (h : c.isDigit = true) : pyIsSpace c = false := by
  cases hx : pyIsSpace c
  · rfl
  · have hx2 := hx
    simp [pyIsSpace] at hx2
    rcases hx2 with ((((rfl | rfl) | rfl) | rfl) | rfl) | rfl <;> exact absurd h (by decide)

theorem pyStrip_all_space (s : Str) (h : ∀ c ∈ s, pyIsSpace c = true) : pyStrip s = [] := by
  have h1 : s.dropWhile pyIsSpace = [] := List.dropWhile_eq_nil_iff.mpr h
  simp [pyStrip, h1]

theorem pyStrip_no_space (s : Str) (h : ∀ c ∈ s, pyIsSpace c = false) : pyStrip s = s := by
  have h1 : s.dropWhile pyIsSpace = s := by
    cases s with
    | nil => rfl
    | cons a l =>
      rw [List.dropWhile_cons, h a (List.mem_cons_self _ _)]
      simp
  rw [pyStrip, h1]
  have h2 : s.reverse.dropWhile pyIsSpace = s.reverse := by
    cases hs : s.reverse with
    | nil => rfl
    | cons a l =>
      rw [List.dropWhile_cons]
      have ha : a ∈ s := by
        rw [← List.mem_reverse, hs]
        exact List.mem_cons_self _ _
      rw [h a ha]
      simp
  rw [h2, List.reverse_reverse]

theorem parseCode_digits (d : Str) (hd1 : d ≠ []) (hd2 : ∀ c ∈ d, c.isDigit = true) :
    parseCode d = natOfDigits d := by
  have hns : pyStrip d = d := pyStrip_no_space d (fun c hc => isDigit_not_space c (hd2 c hc))
  have h1 : d.isEmpty = false := by
    cases d
    · exact absurd rfl hd1
    · rfl
  have h2 : d.all Char.isDigit = true := List.all_eq_true.mpr hd2
  simp [parseCode, hns, h1, h2]

/-- Claim C9: `run_curl` distinguishes transport failure from HTTP-level
failure: every transport-level failure (timeout or exception) returns
exactly `(None, 0)`; every transport success returns a non-`None` body; and
on a captured output consisting of a body followed by the status sentinel
and a numeric code, it returns the stripped body together with that code —
in particular a timeout and an HTTP 500 on the same endpoint produce the two
distinct signals `(None, 0)` and `(body, 500)`. -/
theorem run_curl_transport_distinction :
    (run_curl CurlOutcome.timeout = (none, 0) ∧ run_curl CurlOutcome.curlErr = (none, 0)) ∧
    (∀ out : Str, ((run_curl (CurlOutcome.ok out)).1).isSome = true) ∧
    (∀ b d : Str, d ≠ [] → (∀ c ∈ d, c.isDigit = true) →
      run_curl (CurlOutcome.ok (b ++ (HTTP_CODE_MARKER ++ d)))
        = (some (pyStrip b), natOfDigits d)) ∧
    run_curl (CurlOutcome.ok (toL "Internal Server Error__HTTP_CODE__500"))
      = (some (toL "Internal Server Error"), 500) := by
  refine ⟨⟨rfl, rfl⟩, ?_, ?_, by decide⟩
  · intro out
    unfold run_curl
    cases h : rsplitLast HTTP_CODE_MARKER out with
    | some pq =>
      obtain ⟨p, q⟩ := pq
      simp [h]
    | none => simp [h]
  · intro b d hd1 hd2
    have hsplit := rsplitLast_marker b d hd2
    simp [run_curl, hsplit, parseCode_digits d hd1 hd2]

/-- Witness for C9 at a concrete body and status code, instantiating the
general sentinel-splitting conjunct. -/
theorem run_curl_transport_distinction_witness :
    run_curl (CurlOutcome.ok (toL "oops" ++ (HTTP_CODE_MARKER ++ toL "500")))
      = (some (pyStrip (toL "oops")), natOfDigits (toL "500")) :=
  run_curl_transport_distinction.2.2.1 (toL "oops") (toL "500") (by decide) (by decide)

/-- Claim C10: an HTTP 200 response whose body is empty or whitespace-only is
treated as a tier failure throughout the Fossil cascades: `run_curl` strips
surrounding whitespace from the body (a whitespace-only body strips to the
empty, falsy string, as the concrete 200 fetch shows), and both cascades
guard each tier with a truthiness test on the body, so a fetched empty body
falls through to the next tier exactly as a transport failure does — the
cascade results for body `some ""` and body `None` coincide, for the JSON
tier and the HTML tier of the date cascade and for the JSON taglist, HTML
taglist and HTML branch-list tiers of the tag cascade. -/
theorem empty_body_tier_failure :
    (∀ s : Str, (∀ c ∈ s, pyIsSpace c = true) → pyStrip s = []) ∧
    run_curl (CurlOutcome.ok (toL "   \n__HTTP_CODE__200")) = (some [], 200) ∧
    (∀ c1 p1 mir gd gs hb hc hp meta,
      fetchFossilDate (some []) c1 p1 mir gd gs hb hc hp meta
        = fetchFossilDate none c1 p1 mir gd gs hb hc hp meta) ∧
    (∀ b1 c1 p1 mir gd gs hc hp meta,
      fetchFossilDate b1 c1 p1 mir gd gs (some []) hc hp meta
        = fetchFossilDate b1 c1 p1 mir gd gs none hc hp meta) ∧
    (∀ tc tp tlb tlc tlp blb blc blp tmir mtag meta,
      fetchFossilTag (some []) tc tp tlb tlc tlp blb blc blp tmir mtag meta
        = fetchFossilTag none tc tp tlb tlc tlp blb blc blp tmir mtag meta) ∧
    (∀ tb tc tp tlc tlp blb blc blp tmir mtag meta,
      fetchFossilTag tb tc tp (some []) tlc tlp blb blc blp tmir mtag meta
        = fetchFossilTag tb tc tp none tlc tlp blb blc blp tmir mtag meta) ∧
    (∀ tb tc tp tlb tlc tlp blc blp tmir mtag meta,
      fetchFossilTag tb tc tp tlb tlc tlp (some []) blc blp tmir mtag meta
        = fetchFossilTag tb tc tp tlb tlc tlp none blc blp tmir mtag meta) := by
  refine ⟨?_, by decide, ?_, ?_, ?_, ?_, ?_⟩
  · intro s h
    exact pyStrip_all_space s h
  · intro c1 p1 mir gd gs hb hc hp meta
    simp [fetchFossilDate, tier1Date, truthy]
  · intro b1 c1 p1 mir gd gs hc hp meta
    simp [fetchFossilDate, truthy]
  · intro tc tp tlb tlc tlp blb blc blp tmir mtag meta
    simp [fetchFossilTag, fossilTagChoice, truthy]
  · intro tb tc tp tlc tlp blb blc blp tmir mtag meta
    simp [fetchFossilTag, fossilTagChoice, truthy]
  · intro tb tc tp tlb tlc tlp blc blp tmir mtag meta
    simp [fetchFossilTag, fossilTagChoice, truthy]

/-- Witness for C10: a concrete whitespace-only body strips to the empty
string. -/
theorem empty_body_tier_failure_witness : pyStrip (toL "  \n ") = [] :=
  empty_body_tier_failure.1 (toL "  \n ") (by decide)

/-! Lemmas about the repository-root normalizer. -/

theorem truncAt_some (p : Str) : ∀ (s pre : Str), truncAt p s = some pre →
    ∃ t, s = pre ++ p ++ t := by
  intro s
  induction s with
  | nil =>
    intro pre h
    by_cases hp : p.isEmpty
    · have hpe : p = [] := by
        cases p
        · rfl
        · exact absurd hp (by simp)
      simp [truncAt, hp] at h
      subst hpe
      refine ⟨[], ?_⟩
      simp [← h]
    · simp [truncAt, hp] at h
  | cons a as ih =>
    intro pre h
    by_cases hpre : p.isPrefixOf (a :: as) = true
    · simp [truncAt, hpre] at h
      obtain ⟨t, ht⟩ := List.isPrefixOf_iff_prefix.mp hpre
      subst h
      exact ⟨t, by simpa using ht.symm⟩
    · simp [truncAt, hpre] at h
      obtain ⟨pre2, hp2, hpre2⟩ := h
      obtain ⟨t, ht⟩ := ih pre2 hp2
      refine ⟨t, ?_⟩
      rw [← hpre2, ht]
      simp

theorem truncAt_none_iff (p : Str) (hp : p ≠ []) : ∀ s, truncAt p s = none ↔ ¬ p <:+: s := by
  intro s
  induction s with
  | nil =>
    have hie : p.isEmpty = false := by
      cases p
      · exact absurd rfl hp
      · rfl
    simp [truncAt, hie, List.infix_nil, hp]
  | cons a as ih =>
    constructor
    · intro h hinf
      by_cases hpre : p.isPrefixOf (a :: as) = true
      · simp [truncAt, hpre] at h
      · simp [truncAt, hpre] at h
        have hnia := ih.mp h
        rcases List.infix_cons_iff.mp hinf with hx | hx
        · exact hpre ( List.isPrefixOf_iff_prefix.mpr hx)
        · exact hnia hx
    · intro h
      have h1 : ¬ p <+: (a :: as) := fun hc => h hc.isInfix
      have h2 : ¬ p <:+: as := fun hc => h (List.infix_cons hc)
      have hpre : p.isPrefixOf (a :: as) = false := by
        cases hx : p.isPrefixOf (a :: as)
        · rfl
        · exact absurd ( List.isPrefixOf_iff_prefix.mp hx) h1
      simp [truncAt, hpre, ih.mpr h2]

theorem dropFromChar_pre (sep : Char) : ∀ s, dropFromChar sep s <+: s := by
  intro s
  induction s with
  | nil => simp [dropFromChar]
  | cons a as ih =>
    by_cases h : a = sep
    · simp [dropFromChar, h]
    · simp [dropFromChar, h, List.cons_prefix_cons, ih]

theorem not_mem_dropFromChar (sep : Char) : ∀ s, sep ∉ dropFromChar sep s := by
  intro s
  induction s with
  | nil => simp [dropFromChar]
  | cons a as ih =>
    by_cases h : a = sep
    · simp [dropFromChar, h]
    · intro hmem
      simp only [dropFromChar, h, if_false] at hmem
      rcases List.mem_cons.mp hmem with heq | hmem2
      · exact h heq.symm
      · exact ih hmem2

theorem dropFromChar_of_not_mem (sep : Char) : ∀ s, sep ∉ s → dropFromChar sep s = s := by
  intro s
  induction s with
  | nil => intro _; rfl
  | cons a as ih =>
    intro h
    have h1 : a ≠ sep := fun hc => h (hc ▸ List.mem_cons_self _ _)
    have h2 : sep ∉ as := fun hc => h (List.mem_cons_of_mem _ hc)
    simp [dropFromChar, h1, ih h2]

theorem dropFromChar_eq_self (sep : Char) : ∀ s, dropFromChar sep s = s → sep ∉ s := by
  intro s
  induction s with
  | nil => intro _; simp
  | cons a as ih =>
    intro h
    by_cases ha : a = sep
    · simp [dropFromChar, ha] at h
    · simp only [dropFromChar, ha, if_false, List.cons.injEq] at h
      intro hmem
      rcases List.mem_cons.mp hmem with heq | hmem2
      · exact ha heq.symm
      · exact ih h.2 hmem2

theorem dropFromChar_append (sep : Char) : ∀ s t, sep ∉ s →
    dropFromChar sep (s ++ sep :: t) = s := by
  intro s
  induction s with
  | nil =>
    intro t _
    simp [dropFromChar]
  | cons a as ih =>
    intro t h
    have h1 : a ≠ sep := fun hc => h (hc ▸ List.mem_cons_self _ _)
    have h2 : sep ∉ as := fun hc => h (List.mem_cons_of_mem _ hc)
    simp [dropFromChar, h1, ih t h2]

theorem rstrip_pre (s : Str) : rstripSlash s <+: s := by
  obtain ⟨t, ht⟩ := List.dropWhile_suffix (l := s.reverse) (fun c => c = '/')
  refine ⟨t.reverse, ?_⟩
  rw [rstripSlash, ← List.reverse_append, ht, List.reverse_reverse]

theorem dropWhile_idem (p : Char → Bool) : ∀ l : Str,
    (l.dropWhile p).dropWhile p = l.dropWhile p := by
  intro l
  induction l with
  | nil => rfl
  | cons a l ih =>
    by_cases h : p a = true
    · simp [List.dropWhile_cons, h, ih]
    · simp [List.dropWhile_cons, h]

theorem rstrip_idem (s : Str) : rstripSlash (rstripSlash s) = rstripSlash s := by
  unfold rstripSlash
  rw [List.reverse_reverse, dropWhile_idem]

theorem rstrip_append_keep (s m : Str) (hm : m ≠ []) (hml : m.getLast? ≠ some '/') :
    rstripSlash (s ++ m) = s ++ m := by
  obtain ⟨m0, c, rfl⟩ : ∃ m0 c, m = m0 ++ [c] := by
    rcases List.eq_nil_or_concat m with h | ⟨m0, c, h⟩
    · exact absurd h hm
    · exact ⟨m0, c, by simpa [List.concat_eq_append] using h⟩
  have hc : c ≠ '/' := by
    intro h
    subst h
    exact hml (List.getLast?_concat m0)
  have h1 : (s ++ (m0 ++ [c])).reverse = c :: (m0.reverse ++ s.reverse) := by
    rw [← List.append_assoc, List.reverse_append, List.reverse_append]
    simp
  unfold rstripSlash
  rw [h1, List.dropWhile_cons]
  simp [hc, List.append_assoc]

theorem scan_pre : ∀ (ps : List Str) (base : Str), scanPages ps base <+: base := by
  intro ps
  induction ps with
  | nil =>
    intro base
    simp [scanPages]
  | cons p ps ih =>
    intro base
    cases h : truncAt p base with
    | some pre =>
      obtain ⟨t, ht⟩ := truncAt_some p base pre h
      have hshape : scanPages (p :: ps) base = pre := by simp [scanPages, h]
      rw [hshape]
      exact ⟨p ++ t, by rw [← List.append_assoc, ← ht]⟩
    | none =>
      have hshape : scanPages (p :: ps) base = scanPages ps base := by simp [scanPages, h]
      rw [hshape]
      exact ih base

theorem scan_eq_self (ps : List Str) (hne : ∀ p ∈ ps, p ≠ []) : ∀ base,
    scanPages ps base = base → ∀ p ∈ ps, truncAt p base = none := by
  induction ps with
  | nil =>
    intro base _ p hp
    exact absurd hp (List.not_mem_nil p)
  | cons p0 ps ih =>
    intro base h p hp
    cases h0 : truncAt p0 base with
    | some pre =>
      exfalso
      have h1 : pre = base := by simpa [scanPages, h0] using h
      obtain ⟨t, ht⟩ := truncAt_some p0 base pre h0
      have hlen := congrArg List.length ht
      simp [List.length_append] at hlen
      have hp0 : p0 ≠ [] := hne p0 (List.mem_cons_self _ _)
      have hp0l : 0 < p0.length := List.length_pos.mpr hp0
      rw [h1] at hlen
      omega
    | none =>
      have h2 : scanPages ps base = base := by simpa [scanPages, h0] using h
      rcases List.mem_cons.mp hp with rfl | hp2
      · exact h0
      · exact ih (fun x hx => hne x (List.mem_cons_of_mem _ hx)) base h2 p hp2

theorem scan_none_eq_self : ∀ (ps : List Str) (base : Str),
    (∀ p ∈ ps, truncAt p base = none) → scanPages ps base = base := by
  intro ps
  induction ps with
  | nil =>
    intro base _
    rfl
  | cons p0 ps ih =>
    intro base h
    have h0 : truncAt p0 base = none := h p0 (List.mem_cons_self _ _)
    have hrest := ih base (fun p hp => h p (List.mem_cons_of_mem _ hp))
    simp [scanPages, h0, hrest]

theorem scan_finds : ∀ (ps : List Str) (base r m : Str), m ∈ ps →
    truncAt m base = some r → (∀ p ∈ ps, p ≠ m → truncAt p base = none) →
    scanPages ps base = r := by
  intro ps
  induction ps with
  | nil =>
    intro base r m hm
    exact absurd hm (List.not_mem_nil m)
  | cons p0 ps ih =>
    intro base r m hm htr hother
    by_cases hpm : p0 = m
    · subst hpm
      simp [scanPages, htr]
    · have h0 : truncAt p0 base = none := hother p0 (List.mem_cons_self _ _) hpm
      have hm2 : m ∈ ps := by
        rcases List.mem_cons.mp hm with rfl | h
        · exact absurd rfl hpm
        · exact h
      have := ih base r m hm2 htr (fun p hp hne => hother p (List.mem_cons_of_mem _ hp) hne)
      simp [scanPages, h0, this]

/-! Occurrence analysis for the page markers: each marker starts with a
slash and contains no other slash, so an occurrence of one marker cannot
straddle the boundary between a marker-free root and an appended marker. -/

theorem straddle_false (pt z w mt : Str) (hps : '/' ∉ pt)
    (hzw : ('/' :: pt) = z ++ w) (hz : z ≠ []) (hwn : w ≠ [])
    (hw : w <+: ('/' :: mt)) : False := by
  have hwslash : '/' ∈ w := by
    cases w with
    | nil => exact absurd rfl hwn
    | cons a w2 =>
      obtain ⟨t, ht⟩ := hw
      rw [List.cons_append] at ht
      have ha : a = '/' := by
        have h5 := congrArg List.head? ht
        simpa using h5
      rw [ha]
      exact List.mem_cons_self _ _
  have hwsfx : w <:+ ('/' :: pt) := ⟨z, hzw.symm⟩
  have hlen : w.length ≤ pt.length := by
    have h2 := congrArg List.length hzw
    simp [List.length_append] at h2
    have hz1 : 0 < z.length := List.length_pos.mpr hz
    omega
  have hwpt : w <:+ pt := List.suffix_of_suffix_length_le hwsfx ⟨['/'], rfl⟩ hlen
  exact hps (hwpt.subset hwslash)

theorem truncAt_boundary (pt : Str) (hps : '/' ∉ pt) :
    ∀ r : Str, ¬ ('/' :: pt) <:+: r →
      truncAt ('/' :: pt) (r ++ ('/' :: pt)) = some r := by
  intro r
  induction r with
  | nil =>
    intro _
    have hpre : ('/' :: pt).isPrefixOf ('/' :: pt) = true := by
      simp [ List.isPrefixOf_iff_prefix, List.prefix_refl]
    show truncAt ('/' :: pt) ('/' :: pt) = some []
    simp [truncAt, hpre]
  | cons a r ih =>
    intro hnr
    have hnr2 : ¬ ('/' :: pt) <:+: r := fun hc => hnr (List.infix_cons hc)
    have hpre : ('/' :: pt).isPrefixOf (a :: (r ++ ('/' :: pt))) = false := by
      cases hx : ('/' :: pt).isPrefixOf (a :: (r ++ ('/' :: pt)))
      · rfl
      · exfalso
        have hp2 : ('/' :: pt) <+: (a :: r) ++ ('/' :: pt) := by
          have h3 := List.isPrefixOf_iff_prefix.mp hx
          simpa using h3
        by_cases hl : ('/' :: pt).length ≤ (a :: r).length
        · have hpz : ('/' :: pt) <+: (a :: r) :=
            List.prefix_of_prefix_length_le hp2 (List.prefix_append _ _) hl
          exact hnr hpz.isInfix
        · have h1p : (a :: r) <+: ((a :: r) ++ ('/' :: pt)) := List.prefix_append _ _
          have hzp : (a :: r) <+: ('/' :: pt) :=
            List.prefix_of_prefix_length_le h1p hp2 (by omega)
          obtain ⟨w, hw⟩ := hzp
          have hwne : w ≠ [] := by
            intro hnil
            subst hnil
            rw [List.append_nil] at hw
            rw [hw] at hl
            exact hl (Nat.le_refl _)
          have hwp : w <+: ('/' :: pt) := by
            have hp3 : (a :: r) ++ w <+: (a :: r) ++ ('/' :: pt) := by
              rw [hw]
              exact hp2
            exact ( List.prefix_append_right_inj (a :: r)).mp hp3
          exact straddle_false pt (a :: r) w pt hps hw.symm (by simp) hwne hwp
    show truncAt ('/' :: pt) ((a :: r) ++ ('/' :: pt)) = some (a :: r)
    rw [List.cons_append]
    simp [truncAt, hpre, ih hnr2]

theorem truncAt_other (pt mt r : Str) (hpps : '/' ∉ pt) (hmps : '/' ∉ mt)
    (hnotpre : ¬ ('/' :: pt) <+: ('/' :: mt)) (hnr : ¬ ('/' :: pt) <:+: r) :
    truncAt ('/' :: pt) (r ++ ('/' :: mt)) = none := by
  rw [truncAt_none_iff _ (by simp)]
  intro hinf
  rcases infix_append_cases _ r _ hinf with h1 | h1 | ⟨z, w, hzw, hz, hw, hzr, hwm⟩
  · exact hnr h1
  · rcases List.infix_cons_iff.mp h1 with h2 | h2
    · exact hnotpre h2
    · have hm : '/' ∈ ('/' :: pt) := List.mem_cons_self _ _
      exact hmps (h2.subset hm)
  · exact straddle_false pt z w mt hpps hzw hz hw hwm

/-- Well-formedness of the concrete marker list: every marker is nonempty,
starts with a slash, contains no other slash, no question mark, and does not
end in a slash. -/
theorem pages_facts : ∀ p ∈ FOSSIL_PAGES,
    p.head? = some '/' ∧ '/' ∉ p.tail ∧ '?' ∉ p ∧ p ≠ [] ∧ p.getLast? ≠ some '/' := by
  decide

/-- No marker of the concrete list is a prefix of another marker. -/
theorem pages_nonpre : ∀ p ∈ FOSSIL_PAGES, ∀ m ∈ FOSSIL_PAGES, p ≠ m → ¬ p <+: m := by
  decide

theorem page_shape (p : Str) (hp : p.head? = some '/') : ∃ pt, p = '/' :: pt := by
  cases p with
  | nil => exact Option.noConfusion hp
  | cons a as =>
    have ha : a = '/' := by simpa using hp
    exact ⟨as, by rw [ha]⟩

/-- Decomposition of a normalization fixed point: a URL left unchanged by
`extract_fossil_base` contains no query separator, no trailing slash, and no
page marker. -/
theorem efb_fix_parts (r : Str) (h : extract_fossil_base r = r) :
    dropFromChar '?' r = r ∧ rstripSlash r = r ∧
      ∀ p ∈ FOSSIL_PAGES, truncAt p r = none := by
  have hchain : rstripSlash (scanPages FOSSIL_PAGES (rstripSlash (dropFromChar '?' r))) = r := h
  have p1 : dropFromChar '?' r <+: r := dropFromChar_pre '?' r
  have p2 : rstripSlash (dropFromChar '?' r) <+: dropFromChar '?' r := rstrip_pre _
  have p3 : scanPages FOSSIL_PAGES (rstripSlash (dropFromChar '?' r))
      <+: rstripSlash (dropFromChar '?' r) := scan_pre _ _
  have p4 : rstripSlash (scanPages FOSSIL_PAGES (rstripSlash (dropFromChar '?' r)))
      <+: scanPages FOSSIL_PAGES (rstripSlash (dropFromChar '?' r)) := rstrip_pre _
  have l1 := p1.length_le
  have l2 := p2.length_le
  have l3 := p3.length_le
  have l4 := p4.length_le
  have hlen : (rstripSlash (scanPages FOSSIL_PAGES (rstripSlash (dropFromChar '?' r)))).length
      = r.length := by rw [hchain]
  have e1 : dropFromChar '?' r = r := p1.eq_of_length (by omega)
  rw [e1] at p2 p3 p4 l2 l3 l4 hlen
  have e2 : rstripSlash r = r := p2.eq_of_length (by omega)
  rw [e2] at p3 p4 l3 l4 hlen
  have e3 : scanPages FOSSIL_PAGES r = r := p3.eq_of_length (by omega)
  refine ⟨e1, e2, ?_⟩
  exact scan_eq_self FOSSIL_PAGES (fun p hp => (pages_facts p hp).2.2.2.1) r e3

/-- Claim C4, counterexample: `"https://host/docs"` has the single-segment
`host/reponame` shape of a Fossil repository root, yet appending the page
marker `"/timeline"` and the query string `"n=1"` and normalizing does not
return it: the scan truncates at the earlier marker `"/doc"`, which occurs
inside the repository name, and yields `"https://host"` instead. -/
theorem fossil_root_page_append_cex :
    toL "/timeline" ∈ FOSSIL_PAGES ∧
    extract_fossil_base ((toL "https://host/docs" ++ toL "/timeline") ++ ('?' :: toL "n=1"))
      = toL "https://host" ∧
    extract_fossil_base ((toL "https://host/docs" ++ toL "/timeline") ++ ('?' :: toL "n=1"))
      ≠ toL "https://host/docs" := by
  refine ⟨by decide, by decide, by decide⟩

/-- Claim C4, amended: for every repository root `r` that is a fixed point
of `extract_fossil_base` (equivalently, a root that itself contains no page
marker, no query separator and no trailing slash — the normal form the
normalizer itself produces), every known page marker `m` and every query
string `q`, `extract_fossil_base (r ++ m ++ "?" ++ q) = r`; this holds for
single-segment and multi-segment host paths alike.  The restriction to
fixed-point roots is forced by the counterexample: a root whose own name
contains a marker substring is truncated differently. -/
theorem extract_fossil_base_root_append (r m q : Str)
    (hr : extract_fossil_base r = r) (hm : m ∈ FOSSIL_PAGES) :
    extract_fossil_base ((r ++ m) ++ ('?' :: q)) = r := by
  obtain ⟨e1, e2, e3⟩ := efb_fix_parts r hr
  have hqr : '?' ∉ r := dropFromChar_eq_self '?' r e1
  obtain ⟨hhead, htail, hqm, hmne, hlast⟩ := pages_facts m hm
  obtain ⟨mt, rfl⟩ := page_shape m hhead
  have htail2 : '/' ∉ mt := by simpa using htail
  have hq2 : '?' ∉ r ++ ('/' :: mt) := by
    intro hmem
    rcases List.mem_append.mp hmem with hx | hx
    · exact hqr hx
    · exact hqm hx
  have hd : dropFromChar '?' ((r ++ ('/' :: mt)) ++ ('?' :: q)) = r ++ ('/' :: mt) :=
    dropFromChar_append '?' _ q hq2
  have hs : rstripSlash (r ++ ('/' :: mt)) = r ++ ('/' :: mt) :=
    rstrip_append_keep r _ (by simp) hlast
  have hmr : ¬ ('/' :: mt) <:+: r := by
    have hx := e3 _ hm
    rw [truncAt_none_iff _ hmne] at hx
    exact hx
  have htr : truncAt ('/' :: mt) (r ++ ('/' :: mt)) = some r :=
    truncAt_boundary mt htail2 r hmr
  have hothers : ∀ p ∈ FOSSIL_PAGES, p ≠ ('/' :: mt) →
      truncAt p (r ++ ('/' :: mt)) = none := by
    intro p hp hne
    obtain ⟨ph, ptl, pq, pne, plast⟩ := pages_facts p hp
    obtain ⟨pt, rfl⟩ := page_shape p ph
    have hnp : ¬ ('/' :: pt) <+: ('/' :: mt) := pages_nonpre _ hp _ hm hne
    have hnr : ¬ ('/' :: pt) <:+: r := by
      have hx := e3 _ hp
      rw [truncAt_none_iff _ pne] at hx
      exact hx
    exact truncAt_other pt mt r (by simpa using ptl) htail2 hnp hnr
  have hscan : scanPages FOSSIL_PAGES (r ++ ('/' :: mt)) = r :=
    scan_finds FOSSIL_PAGES _ r _ hm htr hothers
  show rstripSlash (scanPages FOSSIL_PAGES
      (rstripSlash (dropFromChar '?' ((r ++ ('/' :: mt)) ++ ('?' :: q))))) = r
  rw [hd, hs, hscan, e2]

/-- Witness for C4 at a multi-segment repository root, the marker `"/index"`
and an empty query string. -/
theorem extract_fossil_base_root_append_witness :
    extract_fossil_base ((toL "https://chiselapp.com/user/rkeene/repository/tcllib"
        ++ toL "/index") ++ ('?' :: toL "")) =
      toL "https://chiselapp.com/user/rkeene/repository/tcllib" :=
  extract_fossil_base_root_append (toL "https://chiselapp.com/user/rkeene/repository/tcllib")
    (toL "/index") (toL "") (by decide) (by decide)

theorem efb_no_q (u : Str) : '?' ∉ extract_fossil_base u := by
  intro hmem
  have h1 := (rstrip_pre (scanPages FOSSIL_PAGES
    (rstripSlash (dropFromChar '?' u)))).subset hmem
  have h2 := (scan_pre FOSSIL_PAGES (rstripSlash (dropFromChar '?' u))).subset h1
  have h3 := (rstrip_pre (dropFromChar '?' u)).subset h2
  exact not_mem_dropFromChar '?' u h3

/-- Claim C3, counterexample: repository-root normalization is not
idempotent for every URL.  On `"https://host/information/dir"` the first
pass truncates at `"/dir"` and returns `"https://host/information"`, but a
second pass truncates that result again at the marker `"/info"`, which
occurs inside the remaining path segment. -/
theorem extract_fossil_base_not_idempotent_cex :
    extract_fossil_base (toL "https://host/information/dir")
      = toL "https://host/information" ∧
    extract_fossil_base (extract_fossil_base (toL "https://host/information/dir"))
      = toL "https://host" ∧
    extract_fossil_base (extract_fossil_base (toL "https://host/information/dir"))
      ≠ extract_fossil_base (toL "https://host/information/dir") := by
  refine ⟨by decide, by decide, by decide⟩

/-- Claim C3, amended: `extract_fossil_base` is idempotent on every URL
whose normalized result contains no page marker as a substring (which is the
case for every real repository root whose path segments do not embed a
marker); the restriction is forced by the counterexample, where the first
truncation leaves a marker inside the remaining path. -/
theorem extract_fossil_base_idempotent_clean (u : Str)
    (h : ∀ p ∈ FOSSIL_PAGES, ¬ p <:+: extract_fossil_base u) :
    extract_fossil_base (extract_fossil_base u) = extract_fossil_base u := by
  have hq : dropFromChar '?' (extract_fossil_base u) = extract_fossil_base u :=
    dropFromChar_of_not_mem '?' _ (efb_no_q u)
  have hrs : rstripSlash (extract_fossil_base u) = extract_fossil_base u := by
    show rstripSlash (rstripSlash (scanPages FOSSIL_PAGES
      (rstripSlash (dropFromChar '?' u)))) = extract_fossil_base u
    rw [rstrip_idem]
    rfl
  have hscan : scanPages FOSSIL_PAGES (extract_fossil_base u) = extract_fossil_base u := by
    apply scan_none_eq_self
    intro p hp
    have hne : p ≠ [] := (pages_facts p hp).2.2.2.1
    rw [truncAt_none_iff p hne]
    exact h p hp
  show rstripSlash (scanPages FOSSIL_PAGES
      (rstripSlash (dropFromChar '?' (extract_fossil_base u)))) = extract_fossil_base u
  rw [hq, hrs, hscan, hrs]

/-- Witness for C3 at a concrete catalog URL whose normalized root is free
of page markers. -/
theorem extract_fossil_base_idempotent_clean_witness :
    extract_fossil_base (extract_fossil_base
        (toL "https://core.tcl-lang.org/tcllib/dir?name=modules/ftp&ci=trunk"))
      = extract_fossil_base (toL "https://core.tcl-lang.org/tcllib/dir?name=modules/ftp&ci=trunk") :=
  extract_fossil_base_idempotent_clean
    (toL "https://core.tcl-lang.org/tcllib/dir?name=modules/ftp&ci=trunk") (by decide)
